import Mathlib

/-!
Verification of the speedgrabber directory scanner and S3 upload scheduler.

The definitions below are a shallow embedding of the JavaScript sources:

* `FileStructure` with `addFile`, `addBatch`, `addFirstLevelFolder`,
  `incrementProcessedDirs`, `clearFiles` embeds the aggregator class of
  `fileStructure.js` (in its extended form that also tracks
  `firstLevelFolders` and `rootDirName`).
* `uploadFileToS3` embeds the per-file transfer attempt of `uploader.js`:
  set status to `transfer`, optionally short-circuit on an existence check,
  then mark `done` on success or `failed` (recording the error) on a
  capability error / forced cancellation / per-item timeout.
* `runAux` / `processUploads` embed the round-based upload loop
  (`processUploads` in the uploader module): a FIFO queue of all units is
  formed once, each round dequeues `min(concurrency, remaining)` units,
  launches the transfer for the `ready` ones and skips the others, awaits
  the batch against a round deadline, and proceeds to the next round.  The
  behaviour of the external transfer capability is an oracle (`Behaviour`):
  whether the destination already holds the unit, whether the transfer
  succeeds or errors, whether it settles before the round deadline, and
  whether an abandoned transfer ever settles at all.  The late-settlement
  behaviours over-approximate the code — `execAsync`'s unconditional
  per-item rejection timer fires strictly before the round deadline, so
  every launched transfer in fact settles within its round — and are kept
  only so the universal theorems quantify over a superset of what the code
  can do.  A run is a list of `Event`s and the observable state at any
  instant is a fold of the events so far.
-/

/-- Upload status of a transfer unit: `ready | transfer | done | failed`. -/
inductive Status where
  | ready
  | transfer
  | done
  | failed
deriving DecidableEq

/-- A stored file record: `{filepath, size, status}`, plus the `error` field
the uploader attaches on failure.  `filepath`/`error` are `Option` because the
scheduler's completion callback nulls them to reclaim memory. -/
structure FileRecord where
  filepath : Option String
  size : Nat
  status : Status
  error : Option String
deriving DecidableEq

/-- One first-level folder rollup: `{path, fileCount, totalSize}`. -/
structure FolderAggregate where
  path : String
  fileCount : Nat
  totalSize : Nat
deriving DecidableEq

/-- The aggregator state of `fileStructure.js` (extended form). -/
structure FileStructure where
  files : List FileRecord
  totalSize : Nat
  totalFiles : Nat
  processedDirs : Nat
  storeFiles : Bool
  firstLevelFolders : List FolderAggregate
  rootDirName : String
deriving DecidableEq

/-- `new FileStructure()`. -/
def FileStructure.init : FileStructure :=
  { files := [], totalSize := 0, totalFiles := 0, processedDirs := 0,
    storeFiles := true, firstLevelFolders := [], rootDirName := "" }

/-- `setRootDirName(rootDirName)`. -/
def FileStructure.setRootDirName (fs : FileStructure) (rootDirName : String) : FileStructure :=
  { fs with rootDirName := rootDirName }

/-- `addFile(filepath, size)`. -/
def FileStructure.addFile (fs : FileStructure) (filepath : String) (size : Nat) : FileStructure :=
  { fs with
    files := if fs.storeFiles then
        fs.files ++ [{ filepath := some filepath, size := size, status := Status.ready,
                       error := none }]
      else fs.files,
    totalSize := fs.totalSize + size,
    totalFiles := fs.totalFiles + 1 }

/-- Body of the `addBatch` loop: push the record (when `storeFiles`) and add
its size. -/
def addBatchStep (acc : FileStructure) (file : FileRecord) : FileStructure :=
  { acc with
    files := if acc.storeFiles then acc.files ++ [file] else acc.files,
    totalSize := acc.totalSize + file.size }

/-- `addBatch(filesBatch)`: the `for` loop pushes each record (when
`storeFiles`) and adds its size; afterwards `totalFiles += filesBatch.length`. -/
def FileStructure.addBatch (fs : FileStructure) (filesBatch : List FileRecord) : FileStructure :=
  let looped := filesBatch.foldl addBatchStep fs
  { looped with totalFiles := looped.totalFiles + filesBatch.length }

/-- The upsert on the `firstLevelFolders` array: `findIndex` by path, merge the
deltas into the first existing entry, else push a fresh entry at the end. -/
def upsertFolder : List FolderAggregate → String → Nat → Nat → List FolderAggregate
  | [], folderPath, fileCount, totalSize =>
      [{ path := folderPath, fileCount := fileCount, totalSize := totalSize }]
  | f :: rest, folderPath, fileCount, totalSize =>
      if f.path = folderPath then
        { f with fileCount := f.fileCount + fileCount,
                 totalSize := f.totalSize + totalSize } :: rest
      else
        f :: upsertFolder rest folderPath fileCount totalSize

/-- `addFirstLevelFolder(folderPath, fileCount = 0, totalSize = 0)`. -/
def FileStructure.addFirstLevelFolder (fs : FileStructure) (folderPath : String)
    (fileCount totalSize : Nat) : FileStructure :=
  { fs with firstLevelFolders := upsertFolder fs.firstLevelFolders folderPath fileCount totalSize }

/-- `incrementProcessedDirs(count = 1)`. -/
def FileStructure.incrementProcessedDirs (fs : FileStructure) (count : Nat) : FileStructure :=
  { fs with processedDirs := fs.processedDirs + count }

/-- `clearFiles()`: `this.files = []`. -/
def FileStructure.clearFiles (fs : FileStructure) : FileStructure :=
  { fs with files := [] }

/-- Per-folder totals of the aggregate stored for `p`, read off the first
matching entry exactly as `findIndex`/`find` would locate it. -/
def folderLookup (fs : FileStructure) : String → Option (Nat × Nat) :=
  fun p => (fs.firstLevelFolders.find? (fun f => f.path = p)).map
    (fun f => (f.fileCount, f.totalSize))

/-- One aggregation message arriving at the coordinator: either a scan result
batch (`addBatch`) or a first-level folder delta (`addFirstLevelFolder`). -/
inductive ScanOp where
  | batch (records : List FileRecord)
  | folder (path : String) (deltaCount deltaSize : Nat)
deriving DecidableEq

/-- Apply one arriving message to the aggregator. -/
def applyScanOp (fs : FileStructure) : ScanOp → FileStructure
  | ScanOp.batch records => fs.addBatch records
  | ScanOp.folder p dc ds => fs.addFirstLevelFolder p dc ds

/-- Apply a whole arrival sequence to the aggregator. -/
def applyScanOps (fs : FileStructure) (ops : List ScanOp) : FileStructure :=
  ops.foldl applyScanOp fs

section AggregatorLemmas

theorem upsertFolder_lookup_self (L : List FolderAggregate) (p : String) (dc ds : Nat) :
    ((upsertFolder L p dc ds).find? (fun f => f.path = p)).map (fun f => (f.fileCount, f.totalSize)) =
      some (match (L.find? (fun f => f.path = p)).map (fun f => (f.fileCount, f.totalSize)) with
            | some cs => (cs.1 + dc, cs.2 + ds)
            | none => (dc, ds)) := by
  induction L with
  | nil => simp [upsertFolder, List.find?]
  | cons f rest ih =>
    by_cases h : f.path = p
    · simp [upsertFolder, h, List.find?]
    · simp only [upsertFolder, if_neg h, List.find?_cons, decide_eq_true_eq, if_neg h]
      simpa [h] using ih

theorem upsertFolder_lookup_ne (L : List FolderAggregate) (p q : String) (dc ds : Nat)
    (hq : q ≠ p) :
    (upsertFolder L p dc ds).find? (fun f => f.path = q) = L.find? (fun f => f.path = q) := by
  induction L with
  | nil =>
    have hpq : decide (p = q) = false := decide_eq_false (Ne.symm hq)
    simp [upsertFolder, List.find?, hpq]
  | cons f rest ih =>
    simp only [upsertFolder]
    by_cases h : f.path = p
    · rw [if_pos h]
      have hfq : decide (f.path = q) = false :=
        decide_eq_false (by rw [h]; exact Ne.symm hq)
      simp [List.find?_cons, hfq]
    · rw [if_neg h]
      by_cases h2 : f.path = q
      · simp [List.find?_cons, h2]
      · have hfq : decide (f.path = q) = false := decide_eq_false h2
        simp only [List.find?_cons, hfq]
        exact ih

/-- Observable footprint of the aggregator for the order-invariance claim:
grand totals plus per-path folder totals. -/
structure AggObs where
  totalFiles : Nat
  totalSize : Nat
  lookup : String → Option (Nat × Nat)

/-- Read the observable footprint of a `FileStructure`. -/
def aggObs (fs : FileStructure) : AggObs :=
  { totalFiles := fs.totalFiles, totalSize := fs.totalSize, lookup := folderLookup fs }

/-- The effect of one arriving message on the observable footprint. -/
def applyObsOp (o : AggObs) : ScanOp → AggObs
  | ScanOp.batch records =>
      { o with totalFiles := o.totalFiles + records.length,
               totalSize := o.totalSize + (records.map (fun r => r.size)).sum }
  | ScanOp.folder p dc ds =>
      { o with lookup := fun q =>
          if q = p then
            some (match o.lookup p with
                  | some cs => (cs.1 + dc, cs.2 + ds)
                  | none => (dc, ds))
          else o.lookup q }

theorem foldl_addBatchStep (fs : FileStructure) (b : List FileRecord) :
    (b.foldl addBatchStep fs).totalFiles = fs.totalFiles ∧
    (b.foldl addBatchStep fs).totalSize = fs.totalSize + (b.map (fun r => r.size)).sum ∧
    (b.foldl addBatchStep fs).firstLevelFolders = fs.firstLevelFolders := by
  induction b generalizing fs with
  | nil => simp
  | cons r rest ih =>
    simp only [List.foldl_cons, List.map_cons, List.sum_cons]
    have h := ih (addBatchStep fs r)
    refine ⟨h.1, ?_, h.2.2⟩
    rw [h.2.1]
    simp only [addBatchStep]
    ring

theorem addBatch_fields (fs : FileStructure) (b : List FileRecord) :
    (fs.addBatch b).totalFiles = fs.totalFiles + b.length ∧
    (fs.addBatch b).totalSize = fs.totalSize + (b.map (fun r => r.size)).sum ∧
    (fs.addBatch b).firstLevelFolders = fs.firstLevelFolders := by
  have h := foldl_addBatchStep fs b
  refine ⟨?_, ?_, ?_⟩
  · show (b.foldl addBatchStep fs).totalFiles + b.length = fs.totalFiles + b.length
    rw [h.1]
  · exact h.2.1
  · exact h.2.2

theorem aggObs_applyScanOp (fs : FileStructure) (op : ScanOp) :
    aggObs (applyScanOp fs op) = applyObsOp (aggObs fs) op := by
  cases op with
  | batch records =>
    have h := addBatch_fields fs records
    have hl : folderLookup (fs.addBatch records) = folderLookup fs := by
      funext q
      simp [folderLookup, h.2.2]
    simp only [applyScanOp, applyObsOp, aggObs]
    rw [h.1, h.2.1, hl]
  | folder p dc ds =>
    simp only [applyScanOp, applyObsOp, aggObs]
    congr 1
    funext q
    by_cases hq : q = p
    · subst hq
      simpa [folderLookup, FileStructure.addFirstLevelFolder] using
        upsertFolder_lookup_self fs.firstLevelFolders q dc ds
    · simp [folderLookup, FileStructure.addFirstLevelFolder,
        upsertFolder_lookup_ne fs.firstLevelFolders p q dc ds hq, hq]

theorem aggObs_applyScanOps (fs : FileStructure) (ops : List ScanOp) :
    aggObs (applyScanOps fs ops) = ops.foldl applyObsOp (aggObs fs) := by
  induction ops generalizing fs with
  | nil => rfl
  | cons op rest ih =>
    simp only [applyScanOps, List.foldl_cons] at *
    rw [← aggObs_applyScanOp fs op]
    exact ih (applyScanOp fs op)

theorem applyObsOp_comm (o : AggObs) (a b : ScanOp) :
    applyObsOp (applyObsOp o a) b = applyObsOp (applyObsOp o b) a := by
  cases a with
  | batch ra =>
    cases b with
    | batch rb =>
      simp only [applyObsOp]
      congr 1 <;> ring
    | folder p dc ds => rfl
  | folder pa ca sa =>
    cases b with
    | batch rb => rfl
    | folder pb cb sb =>
      simp only [applyObsOp]
      congr 1
      funext q
      by_cases hab : pa = pb
      · subst hab
        by_cases hq : q = pa <;> simp [hq] <;>
          cases h : o.lookup pa <;> simp [h] <;> constructor <;> ring
      · by_cases hqa : q = pa
        · subst hqa
          simp [hab, Ne.symm hab]
        · by_cases hqb : q = pb
          · subst hqb
            simp [Ne.symm hab, hqa, hab]
          · simp [hqa, hqb]

/-- Folding a left-commutative operation is invariant under permutation of the
argument list. -/
theorem foldl_perm_invariant {α β : Type} (f : β → α → β)
    (hf : ∀ o a b, f (f o a) b = f (f o b) a)
    {l₁ l₂ : List α} (h : l₁.Perm l₂) :
    ∀ b : β, l₁.foldl f b = l₂.foldl f b := by
  induction h with
  | nil => intro b; rfl
  | cons x _ ih => intro b; simpa using ih (f b x)
  | swap x y l => intro b; simp [List.foldl_cons, hf b y x]
  | trans _ _ ih₁ ih₂ => intro b; rw [ih₁ b, ih₂ b]

end AggregatorLemmas

/-- C1: for a fixed multiset of scan batches and folder deltas, the final
`totalFiles`, `totalSize`, and every per-folder `fileCount`/`totalSize` are
independent of the arrival order (hence of the worker-pool size):
`addBatch`/`addFirstLevelFolder` aggregation is order-invariant. -/
theorem aggregation_order_invariant (fs : FileStructure) (ops ops' : List ScanOp)
    (h : ops.Perm ops') :
    (applyScanOps fs ops).totalFiles = (applyScanOps fs ops').totalFiles ∧
    (applyScanOps fs ops).totalSize = (applyScanOps fs ops').totalSize ∧
    folderLookup (applyScanOps fs ops) = folderLookup (applyScanOps fs ops') := by
  have hobs : aggObs (applyScanOps fs ops) = aggObs (applyScanOps fs ops') := by
    rw [aggObs_applyScanOps, aggObs_applyScanOps]
    exact foldl_perm_invariant applyObsOp applyObsOp_comm h (aggObs fs)
  refine ⟨?_, ?_, ?_⟩
  · exact congrArg AggObs.totalFiles hobs
  · exact congrArg AggObs.totalSize hobs
  · exact congrArg AggObs.lookup hobs

/-- Witness for C1 at a concrete permutation: swapping a folder delta past a
scan batch leaves all observable aggregates identical. -/
theorem aggregation_order_invariant_witness :
    (applyScanOps FileStructure.init
        [ScanOp.folder "a" 1 2,
         ScanOp.batch [{ filepath := some "f", size := 7, status := Status.ready, error := none }],
         ScanOp.folder "a" 3 4]).totalFiles =
      (applyScanOps FileStructure.init
        [ScanOp.batch [{ filepath := some "f", size := 7, status := Status.ready, error := none }],
         ScanOp.folder "a" 1 2,
         ScanOp.folder "a" 3 4]).totalFiles ∧
    (applyScanOps FileStructure.init
        [ScanOp.folder "a" 1 2,
         ScanOp.batch [{ filepath := some "f", size := 7, status := Status.ready, error := none }],
         ScanOp.folder "a" 3 4]).totalSize =
      (applyScanOps FileStructure.init
        [ScanOp.batch [{ filepath := some "f", size := 7, status := Status.ready, error := none }],
         ScanOp.folder "a" 1 2,
         ScanOp.folder "a" 3 4]).totalSize ∧
    folderLookup (applyScanOps FileStructure.init
        [ScanOp.folder "a" 1 2,
         ScanOp.batch [{ filepath := some "f", size := 7, status := Status.ready, error := none }],
         ScanOp.folder "a" 3 4]) =
      folderLookup (applyScanOps FileStructure.init
        [ScanOp.batch [{ filepath := some "f", size := 7, status := Status.ready, error := none }],
         ScanOp.folder "a" 1 2,
         ScanOp.folder "a" 3 4]) :=
  aggregation_order_invariant FileStructure.init _ _ (List.Perm.swap _ _ _)

/-- C9: `clearFiles` empties only the stored per-file collection; totals,
`processedDirs`, `rootDirName`, and every folder aggregate are unchanged. -/
theorem clearFiles_frame (fs : FileStructure) :
    (fs.clearFiles).files = [] ∧
    (fs.clearFiles).totalFiles = fs.totalFiles ∧
    (fs.clearFiles).totalSize = fs.totalSize ∧
    (fs.clearFiles).processedDirs = fs.processedDirs ∧
    (fs.clearFiles).rootDirName = fs.rootDirName ∧
    (fs.clearFiles).firstLevelFolders = fs.firstLevelFolders :=
  ⟨rfl, rfl, rfl, rfl, rfl, rfl⟩

/-!
The upload scheduler.  `uploadFilesToS3` copies `fileStructure.files` into a
queue, then `processUploads` runs it in rounds: each round dequeues
`Math.min(concurrentUploads, uploadQueue.length)` units with `shift()`, skips
a dequeued unit whose status is not `ready` (still counting it as completed),
launches `uploadFileToS3` for the ready ones, awaits
`Promise.race([Promise.all(batch), batchTimeout])`, and recurses on the
remaining queue.  The external transfer capability is modelled by a
`Behaviour` oracle per unit, and a run is the list of `Event`s produced. -/

/-- How the external transfer command settles, if it ever does: success, or a
rejection carrying an error message (capability error, forced cancellation,
or the per-item timeout message). -/
inductive TransferResult where
  | ok
  | err (msg : String)
deriving DecidableEq

/-- Oracle describing the external capability's behaviour for one unit:
the result of the S3 existence check, how the transfer settles, whether it is
still outstanding when the round deadline elapses (`late`), and — for a
transfer abandoned by a round timeout — whether it ever settles at all.
`late` and `settles` over-approximate the code: `execAsync` arms an
unconditional per-item rejection timer (60 seconds per file, 300 per folder)
that fires strictly before the round deadline (180, resp. 600 seconds), so
every launched transfer in fact settles within its round (`late = false`,
possibly with the timer's message as an `err` result); the extra behaviours
are retained only so the universal theorems quantify over a superset of what
the code can do. -/
structure Behaviour where
  existsRemote : Bool
  result : TransferResult
  late : Bool
  settles : Bool
deriving DecidableEq

/-- `uploadFileToS3(file, ..., checkExist)` as a function of the capability's
responses: set status to `transfer`; when the existence check is enabled and
the destination already holds the unit, mark it `done` without the transfer
command; otherwise run the command and mark `done` on success or `failed`
(recording the error message) on rejection.  Returns the updated record and
the boolean the JavaScript function resolves with. -/
def uploadFileToS3 (file : FileRecord) (checkExist existsInS3 : Bool)
    (transferResult : TransferResult) : FileRecord × Bool :=
  let started := { file with status := Status.transfer }
  if checkExist && existsInS3 then
    ({ started with status := Status.done }, true)
  else
    match transferResult with
    | TransferResult.ok => ({ started with status := Status.done }, true)
    | TransferResult.err m =>
        ({ started with status := Status.failed, error := some m }, false)

/-- Observable steps of a scheduler run.  `skip i` dequeues a non-`ready`
unit; `launch i` dispatches `uploadFileToS3` for unit `i` (its first,
synchronous line sets the status to `transfer`); `settle i` is the resolution
of that call together with the `.then` completion callback; `timeout` marks a
round deadline elapsing with launched transfers still outstanding. -/
inductive Event where
  | skip (i : Nat)
  | launch (i : Nat)
  | settle (i : Nat)
  | timeout
deriving DecidableEq

/-- Mutable state visible during a run: the unit records, the
`completedUploads` tally, the `totalBytesUploaded` counter, and the list of
units for which the transfer command was actually invoked. -/
structure UploadState where
  records : List FileRecord
  completedUploads : Nat
  totalBytesUploaded : Nat
  transferInvocations : List Nat
deriving DecidableEq

/-- Update the record at index `i` (no-op when out of range). -/
def updateRecord (rs : List FileRecord) (i : Nat) (f : FileRecord → FileRecord) :
    List FileRecord :=
  match rs[i]? with
  | some r => rs.set i (f r)
  | none => rs

/-- Apply one event to the state.  `settle i` applies the tail of
`uploadFileToS3` to the in-flight record and then the completion callback:
`completedUploads++`, add the size to `totalBytesUploaded` when the call
succeeded with status `done`, and null the `filepath`/`error` fields to free
memory. -/
def applyEvent (checkExist : Bool) (beh : Nat → Behaviour) (s : UploadState) :
    Event → UploadState
  | Event.skip _ => { s with completedUploads := s.completedUploads + 1 }
  | Event.launch i =>
      let rs := updateRecord s.records i (fun r => { r with status := Status.transfer })
      let s := { s with records := rs }
      if checkExist && (beh i).existsRemote then s
      else { s with transferInvocations := s.transferInvocations ++ [i] }
  | Event.settle i =>
      match s.records[i]? with
      | none => s
      | some r =>
          let res := uploadFileToS3 r checkExist (beh i).existsRemote (beh i).result
          let r' := res.1
          let s := { s with records := s.records.set i r',
                            completedUploads := s.completedUploads + 1 }
          let s := if res.2 && decide (r'.status = Status.done) then
              { s with totalBytesUploaded := s.totalBytesUploaded + r'.size }
            else s
          { s with records := s.records.set i { r' with filepath := none, error := none } }
  | Event.timeout => s

/-- Fold a list of events over a state. -/
def runState (checkExist : Bool) (beh : Nat → Behaviour) (s : UploadState)
    (evs : List Event) : UploadState :=
  evs.foldl (applyEvent checkExist beh) s

/-- Initial scheduler state over the scanned records. -/
def initState (recs : List FileRecord) : UploadState :=
  { records := recs, completedUploads := 0, totalBytesUploaded := 0,
    transferInvocations := [] }

/-- Whether the unit at index `i` of the initial record list is `ready`
(the `file.status === 'ready'` test at dispatch time). -/
def readyAt (recs : List FileRecord) (i : Nat) : Bool :=
  match recs[i]? with
  | some r => decide (r.status = Status.ready)
  | none => false

/-- `const concurrentUploads = maxConcurrent > 0 ? maxConcurrent : 5`. -/
def concurrentUploads (maxConcurrent : Nat) : Nat :=
  if maxConcurrent = 0 then 5 else maxConcurrent

/-- The round loop of `processUploads`, producing the run's event list.
Each call handles one round over queue `q`: dequeue
`min(concurrentUploads, queue length)` indices, emit a dispatch event for
each (launch if `ready`, else skip), then the settle events — first the
transfers abandoned by the previous round's timeout that arrive now
(`pending`), then the transfers of this round that settle before the round
deadline; emit `timeout` when launched transfers are still outstanding at
the deadline, and recurse on the rest of the queue carrying the abandoned
transfers that will still settle.  The `timeout` branch and the `pending`
settles give effect to the over-approximated late behaviours only: with
`late = false` everywhere — the only realizable case, forced by `execAsync`'s
per-item rejection timer — neither ever occurs (`timeout_not_mem_runAux`).
`fuel` bounds the recursion and is at least the queue length at every call,
so the zero-fuel branch is never reached from `processUploads`. -/
def runAux (c : Nat) (beh : Nat → Behaviour) (recs : List FileRecord) :
    Nat → List Nat → List Nat → List Event
  | _, [], pending => pending.map Event.settle
  | 0, _ :: _, pending => pending.map Event.settle
  | fuel + 1, j :: q', pending =>
      let k := min c (q'.length + 1)
      let batch := j :: q'.take (k - 1)
      let launched := batch.filter (fun i => readyAt recs i)
      let inRound := launched.filter (fun i => !(beh i).late)
      let lates := launched.filter (fun i => (beh i).late)
      batch.map (fun i => if readyAt recs i then Event.launch i else Event.skip i) ++
        pending.map Event.settle ++
        inRound.map Event.settle ++
        (if lates.isEmpty then [] else [Event.timeout]) ++
        runAux c beh recs fuel (q'.drop (k - 1))
          (lates.filter (fun i => (beh i).settles))

/-- The full run of `processUploads` on the queue `[...files]`. -/
def processUploads (maxConcurrent : Nat) (recs : List FileRecord)
    (beh : Nat → Behaviour) : List Event :=
  runAux (concurrentUploads maxConcurrent) beh recs recs.length
    (List.range recs.length) []

/-- State of the run after its first `k` events. -/
def stateAt (maxConcurrent : Nat) (checkExist : Bool) (beh : Nat → Behaviour)
    (recs : List FileRecord) (k : Nat) : UploadState :=
  runState checkExist beh (initState recs) ((processUploads maxConcurrent recs beh).take k)

/-- Final state of the run. -/
def finalState (maxConcurrent : Nat) (checkExist : Bool) (beh : Nat → Behaviour)
    (recs : List FileRecord) : UploadState :=
  runState checkExist beh (initState recs) (processUploads maxConcurrent recs beh)

/-- The batches the rounds dequeue, in order (mirrors the dequeue loop of
`runAux`). -/
def dequeueRounds (c : Nat) : Nat → List Nat → List (List Nat)
  | _, [] => []
  | 0, _ :: _ => []
  | fuel + 1, j :: q' =>
      let k := min c (q'.length + 1)
      (j :: q'.take (k - 1)) :: dequeueRounds c fuel (q'.drop (k - 1))

/-- Index dequeued by a dispatch event, if any. -/
def dispatchIdx : Event → Option Nat
  | Event.skip i => some i
  | Event.launch i => some i
  | Event.settle _ => none
  | Event.timeout => none

/-- Number of records currently in `transfer` status. -/
def countTransfer (rs : List FileRecord) : Nat :=
  (rs.map (fun r => if r.status = Status.transfer then 1 else 0)).sum

/-- Status of unit `i` in a state (placeholder `ready` when out of range). -/
def statusIn (s : UploadState) (i : Nat) : Status :=
  match s.records[i]? with
  | some r => r.status
  | none => Status.ready

/-- Sum of the sizes of the records whose status is `done`. -/
def doneSizes (rs : List FileRecord) : Nat :=
  (rs.map (fun r => if r.status = Status.done then r.size else 0)).sum


/-!
Frame machinery: normal forms for the effect of each event, and the fact that
the record of a unit depends only on the events touching that unit, so
per-unit reasoning can restrict a run to the unit's own subtrace. -/

/-- Whether an event reads or writes the record of unit `i`. -/
def touches (i : Nat) : Event → Bool
  | Event.skip j => decide (j = i)
  | Event.launch j => decide (j = i)
  | Event.settle j => decide (j = i)
  | Event.timeout => false

/-- The status `uploadFileToS3` eventually writes for a unit: `done` when the
existence check short-circuits or the command succeeds, `failed` when it
rejects. -/
def settledStatus (checkExist existsInS3 : Bool) (res : TransferResult) : Status :=
  if checkExist && existsInS3 then Status.done
  else match res with
    | TransferResult.ok => Status.done
    | TransferResult.err _ => Status.failed

/-- Net effect of a settle on the unit's record: the final status is written
and the completion callback nulls `filepath`/`error`. -/
def settledRecord (checkExist existsInS3 : Bool) (res : TransferResult)
    (r : FileRecord) : FileRecord :=
  { r with status := settledStatus checkExist existsInS3 res,
           filepath := none, error := none }

theorem uploadFileToS3_cleared (r : FileRecord) (ce e : Bool) (res : TransferResult) :
    { (uploadFileToS3 r ce e res).1 with filepath := none, error := none } =
      settledRecord ce e res r := by
  simp only [uploadFileToS3, settledRecord, settledStatus]
  split
  · rfl
  · cases res <;> rfl

theorem uploadFileToS3_fst_status (r : FileRecord) (ce e : Bool) (res : TransferResult) :
    (uploadFileToS3 r ce e res).1.status = settledStatus ce e res := by
  simp only [uploadFileToS3, settledStatus]
  split
  · rfl
  · cases res <;> rfl

theorem uploadFileToS3_fst_size (r : FileRecord) (ce e : Bool) (res : TransferResult) :
    (uploadFileToS3 r ce e res).1.size = r.size := by
  simp only [uploadFileToS3]
  split
  · rfl
  · cases res <;> rfl

theorem uploadFileToS3_snd (r : FileRecord) (ce e : Bool) (res : TransferResult) :
    (uploadFileToS3 r ce e res).2 = decide (settledStatus ce e res = Status.done) := by
  simp only [uploadFileToS3, settledStatus]
  split
  · simp
  · cases res <;> simp

/-- Normal form of the `launch` event: the record moves to `transfer` and the
transfer command is invoked unless the existence check will short-circuit. -/
theorem applyEvent_launch_eq (ce : Bool) (beh : Nat → Behaviour) (s : UploadState) (i : Nat) :
    applyEvent ce beh s (Event.launch i) =
      { s with
        records := updateRecord s.records i (fun r => { r with status := Status.transfer }),
        transferInvocations := if ce && (beh i).existsRemote then s.transferInvocations
          else s.transferInvocations ++ [i] } := by
  simp only [applyEvent]
  split
  · simp_all
  · simp_all

/-- Normal form of the `settle` event: write the settled record, bump the
completion tally, and add the unit's size to the byte counter exactly when the
transfer ended `done`. -/
theorem applyEvent_settle_eq (ce : Bool) (beh : Nat → Behaviour) (s : UploadState) (i : Nat) :
    applyEvent ce beh s (Event.settle i) =
      match s.records[i]? with
      | none => s
      | some r =>
          { s with
            records := s.records.set i
              (settledRecord ce (beh i).existsRemote (beh i).result r),
            completedUploads := s.completedUploads + 1,
            totalBytesUploaded := s.totalBytesUploaded +
              (if settledStatus ce (beh i).existsRemote (beh i).result = Status.done then
                r.size else 0) } := by
  cases h : s.records[i]? with
  | none => simp [applyEvent, h]
  | some r =>
    simp only [applyEvent, h]
    by_cases hce : (ce && (beh i).existsRemote) = true
    · simp [uploadFileToS3, settledRecord, settledStatus, hce, List.set_set]
    · cases hres : (beh i).result with
      | ok => simp [uploadFileToS3, settledRecord, settledStatus, hce, List.set_set]
      | err m => simp [uploadFileToS3, settledRecord, settledStatus, hce, hres, List.set_set]

theorem updateRecord_get_self (rs : List FileRecord) (i : Nat) (f : FileRecord → FileRecord) :
    (updateRecord rs i f)[i]? = rs[i]?.map f := by
  simp only [updateRecord]
  cases h : rs[i]? with
  | none => simp [h]
  | some r => simp [List.getElem?_set_self', h]

theorem updateRecord_get_ne (rs : List FileRecord) (i j : Nat) (f : FileRecord → FileRecord)
    (h : i ≠ j) : (updateRecord rs i f)[j]? = rs[j]? := by
  simp only [updateRecord]
  cases hr : rs[i]? with
  | none => rfl
  | some r => exact List.getElem?_set_ne h

theorem updateRecord_length (rs : List FileRecord) (i : Nat) (f : FileRecord → FileRecord) :
    (updateRecord rs i f).length = rs.length := by
  simp only [updateRecord]
  cases hr : rs[i]? with
  | none => rfl
  | some r => exact List.length_set rs i (f r)

theorem applyEvent_records_length (ce : Bool) (beh : Nat → Behaviour) (s : UploadState)
    (e : Event) : (applyEvent ce beh s e).records.length = s.records.length := by
  cases e with
  | skip i => rfl
  | launch i => rw [applyEvent_launch_eq]; exact updateRecord_length s.records i _
  | settle i =>
    rw [applyEvent_settle_eq]
    cases h : s.records[i]? with
    | none => rfl
    | some r => exact List.length_set s.records i _
  | timeout => rfl

theorem runState_records_length (ce : Bool) (beh : Nat → Behaviour) (s : UploadState)
    (p : List Event) : (runState ce beh s p).records.length = s.records.length := by
  induction p generalizing s with
  | nil => rfl
  | cons e p ih =>
    simp only [runState, List.foldl_cons] at *
    rw [ih (applyEvent ce beh s e), applyEvent_records_length]

theorem applyEvent_get_untouched (ce : Bool) (beh : Nat → Behaviour) (s : UploadState)
    (e : Event) (i : Nat) (h : touches i e = false) :
    (applyEvent ce beh s e).records[i]? = s.records[i]? := by
  cases e with
  | skip j => rfl
  | launch j =>
    have hji : j ≠ i := by simpa [touches] using h
    rw [applyEvent_launch_eq]
    exact updateRecord_get_ne s.records j i _ hji
  | settle j =>
    have hji : j ≠ i := by simpa [touches] using h
    rw [applyEvent_settle_eq]
    cases hj : s.records[j]? with
    | none => rfl
    | some r => exact List.getElem?_set_ne hji
  | timeout => rfl

theorem applyEvent_get_agree (ce : Bool) (beh : Nat → Behaviour) (s t : UploadState)
    (e : Event) (i : Nat) (h : s.records[i]? = t.records[i]?) :
    (applyEvent ce beh s e).records[i]? = (applyEvent ce beh t e).records[i]? := by
  cases e with
  | skip j => exact h
  | launch j =>
    by_cases hji : j = i
    · subst hji
      rw [applyEvent_launch_eq, applyEvent_launch_eq,
        updateRecord_get_self, updateRecord_get_self, h]
    · rw [applyEvent_launch_eq, applyEvent_launch_eq]
      rw [updateRecord_get_ne s.records j i _ hji, updateRecord_get_ne t.records j i _ hji]
      exact h
  | settle j =>
    by_cases hji : j = i
    · subst hji
      rw [applyEvent_settle_eq, applyEvent_settle_eq, ← h]
      cases hs : s.records[j]? with
      | none => simp [h, hs]
      | some r =>
        have ht : t.records[j]? = some r := h ▸ hs
        simp [List.getElem?_set_self', hs, ht]
    · have hn : touches i (Event.settle j) = false := by simp [touches, hji]
      rw [applyEvent_get_untouched ce beh s _ i hn, applyEvent_get_untouched ce beh t _ i hn]
      exact h
  | timeout => exact h

theorem runState_get_agree (ce : Bool) (beh : Nat → Behaviour) (p : List Event)
    (s t : UploadState) (i : Nat) (h : s.records[i]? = t.records[i]?) :
    (runState ce beh s p).records[i]? = (runState ce beh t p).records[i]? := by
  induction p generalizing s t with
  | nil => exact h
  | cons e p ih =>
    simp only [runState, List.foldl_cons] at *
    exact ih _ _ (applyEvent_get_agree ce beh s t e i h)

/-- The record of unit `i` after a run is determined by the subtrace of
events touching `i`. -/
theorem runState_get_filter (ce : Bool) (beh : Nat → Behaviour) (p : List Event)
    (s : UploadState) (i : Nat) :
    (runState ce beh s p).records[i]? =
      (runState ce beh s (p.filter (touches i))).records[i]? := by
  induction p generalizing s with
  | nil => rfl
  | cons e p ih =>
    by_cases h : touches i e
    · simp only [runState, List.foldl_cons, List.filter_cons, h, if_pos]
      exact ih (applyEvent ce beh s e)
    · have hf : touches i e = false := by simpa using h
      have hfil : List.filter (touches i) (e :: p) = List.filter (touches i) p := by
        simp [List.filter_cons, hf]
      rw [hfil]
      simp only [runState, List.foldl_cons]
      calc (runState ce beh (applyEvent ce beh s e) p).records[i]?
          = (runState ce beh (applyEvent ce beh s e) (p.filter (touches i))).records[i]? :=
            ih (applyEvent ce beh s e)
        _ = (runState ce beh s (p.filter (touches i))).records[i]? :=
            runState_get_agree ce beh _ _ _ i (applyEvent_get_untouched ce beh s e i hf)

theorem filter_touches_map (i : Nat) (l : List Nat) (f : Nat → Event)
    (hf : ∀ x, touches i (f x) = decide (x = i)) (hl : l.Nodup) :
    (l.map f).filter (touches i) = if i ∈ l then [f i] else [] := by
  induction l with
  | nil => simp
  | cons x xs ih =>
    have hxs := (List.nodup_cons.mp hl).2
    simp only [List.map_cons, List.filter_cons, hf x]
    by_cases hx : x = i
    · subst hx
      have hni : x ∉ xs := (List.nodup_cons.mp hl).1
      simp [ih hxs, hni]
    · have hd : (decide (x = i)) = false := decide_eq_false hx
      simp [hd, ih hxs, Ne.symm hx]

/-- The per-unit subtrace the round loop produces for a unit in the queue:
a non-`ready` unit is skipped; a `ready` unit is launched and settles, unless
its transfer is abandoned by a round timeout and never settles. -/
def subtraceSpec (beh : Nat → Behaviour) (recs : List FileRecord) (i : Nat) : List Event :=
  if readyAt recs i = false then [Event.skip i]
  else if (beh i).late && !(beh i).settles then [Event.launch i]
  else [Event.launch i, Event.settle i]

theorem runAux_filter_touches (c : Nat) (beh : Nat → Behaviour) (recs : List FileRecord) :
    ∀ (fuel : Nat) (q pending : List Nat), q.length ≤ fuel → q.Nodup → pending.Nodup →
      (∀ x ∈ pending, x ∉ q) → ∀ i : Nat,
      (runAux c beh recs fuel q pending).filter (touches i) =
        if i ∈ q then subtraceSpec beh recs i
        else if i ∈ pending then [Event.settle i] else [] := by
  intro fuel
  induction fuel with
  | zero =>
    intro q pending hlen hq hp hdisj i
    cases q with
    | nil =>
      simp only [runAux]
      rw [filter_touches_map i pending Event.settle (fun x => rfl) hp]
      simp
    | cons j q' => simp at hlen
  | succ fuel ih =>
    intro q pending hlen hq hp hdisj i
    cases q with
    | nil =>
      simp only [runAux]
      rw [filter_touches_map i pending Event.settle (fun x => rfl) hp]
      simp
    | cons j q' =>
      have hjq : j ∉ q' := (List.nodup_cons.mp hq).1
      have hq' : q'.Nodup := (List.nodup_cons.mp hq).2
      simp only [runAux]
      set k := min c (q'.length + 1) with hk
      set batch := j :: q'.take (k - 1) with hbatch
      set rest := q'.drop (k - 1) with hrest
      have hbatch_nodup : batch.Nodup := by
        rw [hbatch]
        refine List.nodup_cons.mpr ⟨fun hc => hjq ((List.take_sublist _ _).subset hc), ?_⟩
        exact (List.take_sublist _ _).nodup hq'
      have hsplit : batch ++ rest = j :: q' := by
        rw [hbatch, hrest]
        simp [List.take_append_drop]
      have hbr : ∀ x, x ∈ batch → x ∉ rest := by
        intro x hxb hxr
        rcases List.mem_cons.mp hxb with hxj | hxt
        · subst hxj
          exact hjq ((List.drop_sublist _ _).subset hxr)
        · exact (List.disjoint_take_drop hq' (Nat.le_refl _)) hxt hxr
      have hrest_nodup : rest.Nodup := (List.drop_sublist _ _).nodup hq'
      have hrest_len : rest.length ≤ fuel := by
        rw [hrest]
        calc (q'.drop (k - 1)).length = q'.length - (k - 1) := List.length_drop _ _
          _ ≤ q'.length := Nat.sub_le _ _
          _ ≤ fuel := Nat.le_of_succ_le_succ hlen
      -- the dequeued unit classes of this round
      set launched := batch.filter (fun i => readyAt recs i) with hlaunched
      set inRound := launched.filter (fun i => !(beh i).late) with hinRound
      set lates := launched.filter (fun i => (beh i).late) with hlates
      set lateSettling := lates.filter (fun i => (beh i).settles) with hlateSettling
      have hlaunched_nodup : launched.Nodup := hbatch_nodup.filter _
      have hinRound_nodup : inRound.Nodup := hlaunched_nodup.filter _
      have hlates_nodup : lates.Nodup := hlaunched_nodup.filter _
      have hlateSettling_nodup : lateSettling.Nodup := hlates_nodup.filter _
      have hls_batch : ∀ x ∈ lateSettling, x ∈ batch := fun x hx =>
        List.mem_of_mem_filter (List.mem_of_mem_filter (List.mem_of_mem_filter hx))
      have hls_rest : ∀ x ∈ lateSettling, x ∉ rest := fun x hx => hbr x (hls_batch x hx)
      have hrec := ih rest lateSettling hrest_len hrest_nodup hlateSettling_nodup hls_rest i
      -- the five filtered segments
      have hdisp : (batch.map (fun x => if readyAt recs x then Event.launch x
            else Event.skip x)).filter (touches i) =
          if i ∈ batch then
            [if readyAt recs i then Event.launch i else Event.skip i] else [] := by
        refine filter_touches_map i batch _ (fun x => ?_) hbatch_nodup
        by_cases hr : readyAt recs x <;> simp [hr, touches]
      have hpend : (pending.map Event.settle).filter (touches i) =
          if i ∈ pending then [Event.settle i] else [] :=
        filter_touches_map i pending Event.settle (fun x => rfl) hp
      have hinR : (inRound.map Event.settle).filter (touches i) =
          if i ∈ inRound then [Event.settle i] else [] :=
        filter_touches_map i inRound Event.settle (fun x => rfl) hinRound_nodup
      have htime : ((if lates.isEmpty then ([] : List Event)
            else [Event.timeout])).filter (touches i) = [] := by
        by_cases hl : lates.isEmpty <;> simp [hl, touches]
      have hmem_inRound : i ∈ inRound ↔
          (i ∈ batch ∧ readyAt recs i = true ∧ (beh i).late = false) := by
        rw [hinRound, hlaunched]
        constructor
        · intro hc
          have h1 := List.mem_filter.mp hc
          have h2 := List.mem_filter.mp h1.1
          refine ⟨h2.1, h2.2, ?_⟩
          simpa using h1.2
        · rintro ⟨h1, h2, h3⟩
          exact List.mem_filter.mpr ⟨List.mem_filter.mpr ⟨h1, h2⟩, by simp [h3]⟩
      have hmem_lateSettling : i ∈ lateSettling ↔
          (i ∈ batch ∧ readyAt recs i = true ∧ (beh i).late = true ∧
            (beh i).settles = true) := by
        rw [hlateSettling, hlates, hlaunched]
        constructor
        · intro hc
          have h1 := List.mem_filter.mp hc
          have h2 := List.mem_filter.mp h1.1
          have h3 := List.mem_filter.mp h2.1
          exact ⟨h3.1, h3.2, h2.2, h1.2⟩
        · rintro ⟨h1, h2, h3, h4⟩
          exact List.mem_filter.mpr ⟨List.mem_filter.mpr ⟨List.mem_filter.mpr ⟨h1, h2⟩, h3⟩, h4⟩
      have hmem_q : i ∈ j :: q' ↔ (i ∈ batch ∨ i ∈ rest) := by
        rw [← hsplit]
        simp
      simp only [List.filter_append, hdisp, hpend, hinR, htime, hrec, List.append_nil]
      by_cases hip : i ∈ pending
      · have hiq : i ∉ j :: q' := fun hc => hdisj i hip hc
        have hib : i ∉ batch := fun hc => hiq (hmem_q.mpr (Or.inl hc))
        have hir : i ∉ rest := fun hc => hiq (hmem_q.mpr (Or.inr hc))
        have hils : i ∉ lateSettling := fun hc => hib (hls_batch i hc)
        have hiIR : i ∉ inRound := fun hc => hib (hmem_inRound.mp hc).1
        rw [if_neg hib, if_pos hip, if_neg hiIR, if_neg hir, if_neg hils, if_neg hiq]
        simp
      · by_cases hib : i ∈ batch
        · have hiq : i ∈ j :: q' := hmem_q.mpr (Or.inl hib)
          have hir : i ∉ rest := hbr i hib
          by_cases hready : readyAt recs i = true
          · by_cases hlate : (beh i).late = true
            · by_cases hsettles : (beh i).settles = true
              · have hils : i ∈ lateSettling :=
                  hmem_lateSettling.mpr ⟨hib, hready, hlate, hsettles⟩
                have hiIR : i ∉ inRound := fun hc => by
                  have hl := (hmem_inRound.mp hc).2.2
                  rw [hlate] at hl
                  exact absurd hl (by simp)
                rw [if_pos hib, if_neg hip, if_neg hiIR, if_neg hir, if_pos hils, if_pos hiq]
                simp [subtraceSpec, hready, hlate, hsettles]
              · have hsf : (beh i).settles = false := by
                  cases hcs : (beh i).settles
                  · rfl
                  · exact absurd hcs hsettles
                have hils : i ∉ lateSettling := fun hc => by
                  have hl := (hmem_lateSettling.mp hc).2.2.2
                  rw [hsf] at hl
                  exact absurd hl (by simp)
                have hiIR : i ∉ inRound := fun hc => by
                  have hl := (hmem_inRound.mp hc).2.2
                  rw [hlate] at hl
                  exact absurd hl (by simp)
                rw [if_pos hib, if_neg hip, if_neg hiIR, if_neg hir, if_neg hils, if_pos hiq]
                simp [subtraceSpec, hready, hlate, hsf]
            · have hlf : (beh i).late = false := by
                cases hcl : (beh i).late
                · rfl
                · exact absurd hcl hlate
              have hils : i ∉ lateSettling := fun hc => by
                have hl := (hmem_lateSettling.mp hc).2.2.1
                rw [hlf] at hl
                exact absurd hl (by simp)
              have hiIR : i ∈ inRound := hmem_inRound.mpr ⟨hib, hready, hlf⟩
              rw [if_pos hib, if_neg hip, if_pos hiIR, if_neg hir, if_neg hils, if_pos hiq]
              simp [subtraceSpec, hready, hlf]
          · have hrf : readyAt recs i = false := by
              cases hcr : readyAt recs i
              · rfl
              · exact absurd hcr hready
            have hils : i ∉ lateSettling := fun hc => by
              have hl := (hmem_lateSettling.mp hc).2.1
              rw [hrf] at hl
              exact absurd hl (by simp)
            have hiIR : i ∉ inRound := fun hc => by
              have hl := (hmem_inRound.mp hc).2.1
              rw [hrf] at hl
              exact absurd hl (by simp)
            rw [if_pos hib, if_neg hip, if_neg hiIR, if_neg hir, if_neg hils, if_pos hiq]
            simp [subtraceSpec, hrf]
        · by_cases hir : i ∈ rest
          · have hiq : i ∈ j :: q' := hmem_q.mpr (Or.inr hir)
            have hils : i ∉ lateSettling := fun hc => hib (hls_batch i hc)
            have hiIR : i ∉ inRound := fun hc => hib (hmem_inRound.mp hc).1
            rw [if_neg hib, if_neg hip, if_neg hiIR, if_pos hir, if_pos hiq]
            simp
          · have hiq : i ∉ j :: q' := fun hc => by
              rcases hmem_q.mp hc with h1 | h1
              · exact hib h1
              · exact hir h1
            have hils : i ∉ lateSettling := fun hc => hib (hls_batch i hc)
            have hiIR : i ∉ inRound := fun hc => hib (hmem_inRound.mp hc).1
            rw [if_neg hib, if_neg hip, if_neg hiIR, if_neg hir, if_neg hils, if_neg hiq]
            simp

/-- The per-unit subtrace of a full run: units in range follow
`subtraceSpec`, others are never touched. -/
theorem processUploads_filter_touches (c : Nat) (beh : Nat → Behaviour)
    (recs : List FileRecord) (i : Nat) :
    (processUploads c recs beh).filter (touches i) =
      if i < recs.length then subtraceSpec beh recs i else [] := by
  have h := runAux_filter_touches (concurrentUploads c) beh recs recs.length
    (List.range recs.length) [] (by rw [List.length_range]) (List.nodup_range _)
    List.nodup_nil (by intro x hx; cases hx) i
  rw [processUploads, h]
  by_cases hi : i < recs.length
  · rw [if_pos (List.mem_range.mpr hi), if_pos hi]
  · rw [if_neg (fun hc => hi (List.mem_range.mp hc)), if_neg hi]
    simp

/-- The record a unit ends the run with, as a function of its initial record
and the capability's behaviour: a non-`ready` unit is untouched; a `ready`
unit whose abandoned transfer never settles is left in `transfer`; otherwise
the settled record is written. -/
def finalRecord (ce : Bool) (b : Behaviour) (r : FileRecord) : FileRecord :=
  if r.status = Status.ready then
    (if b.late && !b.settles then { r with status := Status.transfer }
     else settledRecord ce b.existsRemote b.result r)
  else r

theorem initState_get (recs : List FileRecord) (i : Nat) :
    (initState recs).records[i]? = recs[i]? := rfl

theorem runState_skip_records (ce : Bool) (beh : Nat → Behaviour) (s : UploadState) (i : Nat) :
    (runState ce beh s [Event.skip i]).records = s.records := rfl

theorem runState_launch_get (ce : Bool) (beh : Nat → Behaviour) (s : UploadState) (i : Nat) :
    (runState ce beh s [Event.launch i]).records[i]? =
      s.records[i]?.map (fun r => { r with status := Status.transfer }) := by
  show (applyEvent ce beh s (Event.launch i)).records[i]? = _
  rw [applyEvent_launch_eq]
  exact updateRecord_get_self s.records i _

theorem runState_launch_settle_get (ce : Bool) (beh : Nat → Behaviour) (s : UploadState)
    (i : Nat) :
    (runState ce beh s [Event.launch i, Event.settle i]).records[i]? =
      s.records[i]?.map
        (fun r => settledRecord ce (beh i).existsRemote (beh i).result r) := by
  show (applyEvent ce beh (applyEvent ce beh s (Event.launch i)) (Event.settle i)).records[i]? = _
  rw [applyEvent_settle_eq]
  have hl : (applyEvent ce beh s (Event.launch i)).records[i]? =
      s.records[i]?.map (fun r => { r with status := Status.transfer }) := by
    rw [applyEvent_launch_eq]
    exact updateRecord_get_self s.records i _
  cases h : s.records[i]? with
  | none =>
    rw [show (applyEvent ce beh s (Event.launch i)).records[i]? = none by rw [hl, h]; rfl]
    rw [applyEvent_launch_eq]
    simp only [Option.map_none']
    simp only [updateRecord, h]
  | some r =>
    have hsome : (applyEvent ce beh s (Event.launch i)).records[i]? =
        some { r with status := Status.transfer } := by rw [hl, h]; rfl
    rw [hsome]
    simp only [List.getElem?_set_self', hsome, Option.map_some']
    rfl

/-- Per-unit characterisation of the final state: each record ends as
`finalRecord` of its initial value. -/
theorem finalState_get (c : Nat) (ce : Bool) (beh : Nat → Behaviour)
    (recs : List FileRecord) (i : Nat) :
    (finalState c ce beh recs).records[i]? = recs[i]?.map (finalRecord ce (beh i)) := by
  rw [finalState, runState_get_filter, processUploads_filter_touches]
  by_cases hi : i < recs.length
  · rw [if_pos hi]
    have hr : ∃ r, recs[i]? = some r := ⟨recs[i], List.getElem?_eq_getElem hi⟩
    obtain ⟨r, hr⟩ := hr
    rw [subtraceSpec]
    by_cases hready : readyAt recs i = false
    · have hst : r.status ≠ Status.ready := by
        intro hc
        rw [readyAt, hr] at hready
        simp [hc] at hready
      rw [if_pos hready]
      rw [show (runState ce beh (initState recs) [Event.skip i]).records = recs from rfl]
      rw [hr]
      simp [finalRecord, hst]
    · have hrt : readyAt recs i = true := by
        cases hc : readyAt recs i
        · exact absurd hc hready
        · rfl
      have hst : r.status = Status.ready := by
        rw [readyAt, hr] at hrt
        simpa using hrt
      rw [if_neg hready]
      by_cases hlns : ((beh i).late && !(beh i).settles) = true
      · rw [if_pos hlns]
        rw [runState_launch_get, initState_get, hr]
        simp [finalRecord, hst, hlns]
      · rw [if_neg hlns]
        rw [runState_launch_settle_get, initState_get, hr]
        have hlns' : ((beh i).late && !(beh i).settles) = false := by
          cases hc : ((beh i).late && !(beh i).settles)
          · rfl
          · exact absurd hc hlns
        simp [finalRecord, hst, hlns']
  · rw [if_neg hi]
    have hnone : recs[i]? = none := List.getElem?_eq_none (Nat.le_of_not_lt hi)
    show (initState recs).records[i]? = _
    rw [initState_get, hnone]
    rfl

/-!
Dispatch order: the run dequeues exactly the FIFO queue, in order, in rounds
of `min(concurrency, remaining)`. -/

theorem filterMap_dispatchIdx_settles (l : List Nat) :
    (l.map Event.settle).filterMap dispatchIdx = [] := by
  induction l with
  | nil => rfl
  | cons x xs ih => simp [dispatchIdx, ih]

theorem filterMap_dispatchIdx_dispatch (recs : List FileRecord) (l : List Nat) :
    (l.map (fun x => if readyAt recs x then Event.launch x else Event.skip x)).filterMap
      dispatchIdx = l := by
  induction l with
  | nil => rfl
  | cons x xs ih =>
    by_cases hx : readyAt recs x <;> simp [hx, dispatchIdx, ih]

/-- The indices dequeued along a run are exactly the concatenation of the
round batches. -/
theorem runAux_dispatch_rounds (c : Nat) (beh : Nat → Behaviour) (recs : List FileRecord) :
    ∀ (fuel : Nat) (q pending : List Nat),
      (runAux c beh recs fuel q pending).filterMap dispatchIdx =
        (dequeueRounds c fuel q).flatten := by
  intro fuel
  induction fuel with
  | zero =>
    intro q pending
    cases q with
    | nil =>
      simp only [runAux, dequeueRounds]
      rw [filterMap_dispatchIdx_settles]
      rfl
    | cons j q' =>
      simp only [runAux, dequeueRounds]
      rw [filterMap_dispatchIdx_settles]
      rfl
  | succ fuel ih =>
    intro q pending
    cases q with
    | nil =>
      simp only [runAux, dequeueRounds]
      rw [filterMap_dispatchIdx_settles]
      rfl
    | cons j q' =>
      simp only [runAux, dequeueRounds, List.flatten_cons]
      rw [List.filterMap_append, List.filterMap_append, List.filterMap_append,
        List.filterMap_append]
      rw [filterMap_dispatchIdx_dispatch, filterMap_dispatchIdx_settles,
        filterMap_dispatchIdx_settles, ih]
      have htime : ((if (List.filter (fun i => (beh i).late)
            (List.filter (fun i => readyAt recs i) (j :: List.take (min c (q'.length + 1) - 1) q'))).isEmpty
            then ([] : List Event) else [Event.timeout])).filterMap dispatchIdx = [] := by
        split <;> rfl
      rw [htime]
      simp

/-- Concatenating the round batches gives back the queue. -/
theorem dequeueRounds_join (c : Nat) :
    ∀ (fuel : Nat) (q : List Nat), q.length ≤ fuel → (dequeueRounds c fuel q).flatten = q := by
  intro fuel
  induction fuel with
  | zero =>
    intro q hlen
    cases q with
    | nil => rfl
    | cons j q' => simp at hlen
  | succ fuel ih =>
    intro q hlen
    cases q with
    | nil => rfl
    | cons j q' =>
      simp only [dequeueRounds, List.flatten_cons]
      rw [ih _ (by
        calc (q'.drop (min c (q'.length + 1) - 1)).length
            = q'.length - (min c (q'.length + 1) - 1) := List.length_drop _ _
          _ ≤ q'.length := Nat.sub_le _ _
          _ ≤ fuel := Nat.le_of_succ_le_succ hlen)]
      simp [List.take_append_drop]

/-- The dequeue order of a full run is the FIFO queue `0, 1, ..., n-1`. -/
theorem processUploads_dispatch_order (c : Nat) (recs : List FileRecord)
    (beh : Nat → Behaviour) :
    (processUploads c recs beh).filterMap dispatchIdx = List.range recs.length := by
  rw [processUploads, runAux_dispatch_rounds,
    dequeueRounds_join _ _ _ (by rw [List.length_range])]

/-- C3: the scheduler forms one FIFO queue up front and dequeues
`min(concurrency, remaining)` units per round in queue order with no
reordering; with 7 pending units and concurrency 3 it runs exactly 3 rounds
of sizes 3, 3, 1, in that order. -/
theorem scheduler_fifo_rounds (beh : Nat → Behaviour) (recs : List FileRecord)
    (h7 : recs.length = 7) :
    (processUploads 3 recs beh).filterMap dispatchIdx =
      (dequeueRounds 3 7 (List.range 7)).flatten ∧
    (processUploads 3 recs beh).filterMap dispatchIdx = List.range 7 ∧
    (dequeueRounds 3 7 (List.range 7)).map List.length = [3, 3, 1] ∧
    (dequeueRounds 3 7 (List.range 7)).flatten = List.range 7 := by
  refine ⟨?_, ?_, by decide, by decide⟩
  · rw [processUploads, h7]
    exact runAux_dispatch_rounds 3 beh recs 7 (List.range 7) []
  · rw [processUploads_dispatch_order, h7]

/-- Witness for C3 on a concrete 7-unit queue. -/
theorem scheduler_fifo_rounds_witness :
    (processUploads 3 (List.replicate 7
        { filepath := some "f", size := 1, status := Status.ready, error := none })
      (fun _ => { existsRemote := false, result := TransferResult.ok,
                  late := false, settles := false })).filterMap dispatchIdx =
      (dequeueRounds 3 7 (List.range 7)).flatten ∧
    (processUploads 3 (List.replicate 7
        { filepath := some "f", size := 1, status := Status.ready, error := none })
      (fun _ => { existsRemote := false, result := TransferResult.ok,
                  late := false, settles := false })).filterMap dispatchIdx = List.range 7 ∧
    (dequeueRounds 3 7 (List.range 7)).map List.length = [3, 3, 1] ∧
    (dequeueRounds 3 7 (List.range 7)).flatten = List.range 7 :=
  scheduler_fifo_rounds _ _ (by decide)

/-- A freshly scanned `ready` record, used by concrete witnesses. -/
def sampleRecord (p : String) (sz : Nat) : FileRecord :=
  { filepath := some p, size := sz, status := Status.ready, error := none }

/-- Capability behaviour where every transfer succeeds within its round. -/
def behPrompt : Nat → Behaviour :=
  fun _ => { existsRemote := false, result := TransferResult.ok,
             late := false, settles := false }

/-- C8: a transfer attempt that settles with a capability error, a forced
cancellation, or the per-item timeout rejection leaves its unit `failed` with
the error message recorded on the unit and a `false` result, and the
scheduler still dequeues every queued unit of the run — later units and
rounds proceed, the run is not aborted. -/
theorem failed_transfer_recorded_and_run_continues
    (file : FileRecord) (ce ex : Bool) (msg : String)
    (c : Nat) (beh : Nat → Behaviour) (recs : List FileRecord)
    (hce : (ce && ex) = false) :
    (uploadFileToS3 file ce ex (TransferResult.err msg)).1.status = Status.failed ∧
    (uploadFileToS3 file ce ex (TransferResult.err msg)).1.error = some msg ∧
    (uploadFileToS3 file ce ex (TransferResult.err msg)).2 = false ∧
    (processUploads c recs beh).filterMap dispatchIdx = List.range recs.length := by
  refine ⟨?_, ?_, ?_, processUploads_dispatch_order c recs beh⟩ <;>
    simp [uploadFileToS3, hce]

/-- Witness for C8: a timed-out transfer of a concrete unit is recorded as
`failed` with the timeout message, and a concrete 2-unit run still dequeues
both units. -/
theorem failed_transfer_recorded_and_run_continues_witness :
    (uploadFileToS3 (sampleRecord "a" 5) false false
        (TransferResult.err "Command timed out after 60 seconds")).1.status = Status.failed ∧
    (uploadFileToS3 (sampleRecord "a" 5) false false
        (TransferResult.err "Command timed out after 60 seconds")).1.error =
      some "Command timed out after 60 seconds" ∧
    (uploadFileToS3 (sampleRecord "a" 5) false false
        (TransferResult.err "Command timed out after 60 seconds")).2 = false ∧
    (processUploads 1 [sampleRecord "a" 5, sampleRecord "b" 3]
        (fun _ => { existsRemote := false,
                    result := TransferResult.err "Command timed out after 60 seconds",
                    late := false, settles := false })).filterMap dispatchIdx =
      List.range 2 :=
  failed_transfer_recorded_and_run_continues _ _ _ _ _ _ _ rfl

/-- Events that bump `completedUploads`: a dequeued-and-skipped unit, or a
settled upload's completion callback. -/
def countsCompleted : Event → Bool
  | Event.skip _ => true
  | Event.settle _ => true
  | Event.launch _ => false
  | Event.timeout => false

theorem runState_completed (ce : Bool) (beh : Nat → Behaviour) :
    ∀ (p : List Event) (s : UploadState),
      (∀ i, Event.settle i ∈ p → i < s.records.length) →
      (runState ce beh s p).completedUploads =
        s.completedUploads + p.countP countsCompleted := by
  intro p
  induction p with
  | nil => intro s _; simp [runState, List.countP, List.countP.go]
  | cons e p ih =>
    intro s hset
    have hlen : ∀ i, Event.settle i ∈ p → i < (applyEvent ce beh s e).records.length := by
      intro i hi
      rw [applyEvent_records_length]
      exact hset i (List.mem_cons_of_mem _ hi)
    show (runState ce beh (applyEvent ce beh s e) p).completedUploads = _
    rw [ih _ hlen, List.countP_cons]
    cases e with
    | skip j =>
      show s.completedUploads + 1 + _ = _
      simp [countsCompleted]
      ring
    | launch j =>
      rw [applyEvent_launch_eq]
      simp [countsCompleted]
    | settle j =>
      have hj : j < s.records.length := hset j (List.mem_cons_self _ _)
      rw [applyEvent_settle_eq, List.getElem?_eq_getElem hj]
      simp [countsCompleted]
      ring
    | timeout =>
      show s.completedUploads + _ = _
      simp [countsCompleted]

theorem settle_mem_lt (c : Nat) (beh : Nat → Behaviour) (recs : List FileRecord) (i : Nat)
    (h : Event.settle i ∈ processUploads c recs beh) : i < recs.length := by
  by_contra hge
  have hft := processUploads_filter_touches c beh recs i
  rw [if_neg hge] at hft
  have hmem : Event.settle i ∈ (processUploads c recs beh).filter (touches i) :=
    List.mem_filter.mpr ⟨h, by simp [touches]⟩
  rw [hft] at hmem
  cases hmem

theorem launch_mem_ready (c : Nat) (beh : Nat → Behaviour) (recs : List FileRecord) (i : Nat)
    (h : Event.launch i ∈ processUploads c recs beh) : readyAt recs i = true := by
  have hmem : Event.launch i ∈ (processUploads c recs beh).filter (touches i) :=
    List.mem_filter.mpr ⟨h, by simp [touches]⟩
  have hft := processUploads_filter_touches c beh recs i
  by_cases hi : i < recs.length
  · rw [if_pos hi] at hft
    rw [hft, subtraceSpec] at hmem
    by_cases hready : readyAt recs i = false
    · rw [if_pos hready] at hmem
      simp at hmem
    · cases hc : readyAt recs i
      · exact absurd hc hready
      · rfl
  · rw [if_neg hi] at hft
    rw [hft] at hmem
    cases hmem

theorem mem_invocations_launch (ce : Bool) (beh : Nat → Behaviour) :
    ∀ (p : List Event) (s : UploadState) (i : Nat),
      i ∈ (runState ce beh s p).transferInvocations →
      i ∈ s.transferInvocations ∨ Event.launch i ∈ p := by
  intro p
  induction p with
  | nil => intro s i h; exact Or.inl h
  | cons e p ih =>
    intro s i h
    rcases ih (applyEvent ce beh s e) i h with h1 | h1
    · cases e with
      | skip j => exact Or.inl h1
      | timeout => exact Or.inl h1
      | launch j =>
        rw [applyEvent_launch_eq] at h1
        simp only at h1
        by_cases hc : (ce && (beh j).existsRemote) = true
        · rw [if_pos hc] at h1
          exact Or.inl h1
        · rw [if_neg hc] at h1
          rcases List.mem_append.mp h1 with h2 | h2
          · exact Or.inl h2
          · have hij : i = j := by simpa using h2
            subst hij
            exact Or.inr (List.mem_cons_self _ _)
      | settle j =>
        rw [applyEvent_settle_eq] at h1
        cases hr : s.records[j]? with
        | none => rw [hr] at h1; exact Or.inl h1
        | some r => rw [hr] at h1; exact Or.inl h1
    · exact Or.inr (List.mem_cons_of_mem _ h1)

/-- C10: a dequeued unit whose status is not `ready` is skipped: its record
is left exactly as it was, the transfer command is never invoked for it, the
run emits a `skip` (counted by the completion tally, whose final value counts
every skip and settle of the terminating run). -/
theorem non_ready_unit_skipped
    (c : Nat) (ce : Bool) (beh : Nat → Behaviour) (recs : List FileRecord)
    (i : Nat) (r : FileRecord)
    (hr : recs[i]? = some r) (hnr : r.status ≠ Status.ready) :
    (finalState c ce beh recs).records[i]? = some r ∧
    i ∉ (finalState c ce beh recs).transferInvocations ∧
    Event.skip i ∈ processUploads c recs beh ∧
    (finalState c ce beh recs).completedUploads =
      (processUploads c recs beh).countP countsCompleted := by
  have hi : i < recs.length := by
    rcases List.getElem?_eq_some_iff.mp hr with ⟨h, _⟩
    exact h
  have hrf : readyAt recs i = false := by
    rw [readyAt, hr]
    simp [hnr]
  refine ⟨?_, ?_, ?_, ?_⟩
  · rw [finalState_get, hr]
    simp [finalRecord, hnr]
  · intro hmem
    rcases mem_invocations_launch ce beh (processUploads c recs beh) (initState recs) i hmem
      with h1 | h1
    · cases h1
    · rw [launch_mem_ready c beh recs i h1] at hrf
      cases hrf
  · have hft := processUploads_filter_touches c beh recs i
    rw [if_pos hi, subtraceSpec, if_pos hrf] at hft
    have : Event.skip i ∈ (processUploads c recs beh).filter (touches i) := by
      rw [hft]
      exact List.mem_cons_self _ _
    exact List.mem_of_mem_filter this
  · have := runState_completed ce beh (processUploads c recs beh) (initState recs)
      (fun j hj => settle_mem_lt c beh recs j hj)
    rw [finalState, this]
    show 0 + _ = _
    rw [Nat.zero_add]

/-- Witness for C10: a unit already `failed` at dispatch time is dequeued,
skipped, left untouched, never handed to the transfer command, and counted. -/
theorem non_ready_unit_skipped_witness :
    (finalState 2 false behPrompt
        [sampleRecord "a" 5, { sampleRecord "b" 3 with status := Status.failed },
         sampleRecord "c" 2]).records[1]? =
      some { sampleRecord "b" 3 with status := Status.failed } ∧
    1 ∉ (finalState 2 false behPrompt
        [sampleRecord "a" 5, { sampleRecord "b" 3 with status := Status.failed },
         sampleRecord "c" 2]).transferInvocations ∧
    Event.skip 1 ∈ processUploads 2
        [sampleRecord "a" 5, { sampleRecord "b" 3 with status := Status.failed },
         sampleRecord "c" 2] behPrompt ∧
    (finalState 2 false behPrompt
        [sampleRecord "a" 5, { sampleRecord "b" 3 with status := Status.failed },
         sampleRecord "c" 2]).completedUploads =
      (processUploads 2
        [sampleRecord "a" 5, { sampleRecord "b" 3 with status := Status.failed },
         sampleRecord "c" 2] behPrompt).countP countsCompleted :=
  non_ready_unit_skipped 2 false behPrompt _ 1 _ rfl (by decide)

theorem runState_invocations_all_exist (beh : Nat → Behaviour)
    (hex : ∀ i, (beh i).existsRemote = true) :
    ∀ (p : List Event) (s : UploadState),
      (runState true beh s p).transferInvocations = s.transferInvocations := by
  intro p
  induction p with
  | nil => intro s; rfl
  | cons e p ih =>
    intro s
    show (runState true beh (applyEvent true beh s e) p).transferInvocations = _
    rw [ih]
    cases e with
    | skip j => rfl
    | timeout => rfl
    | launch j =>
      rw [applyEvent_launch_eq]
      simp [hex j]
    | settle j =>
      rw [applyEvent_settle_eq]
      cases hr : s.records[j]? with
      | none => rfl
      | some r => rfl

/-- C6: with the existence check enabled and the destination already holding
every unit (every existence probe answers `true` and is answered during the
run), a run over `ready` units invokes the transfer command zero times and
every unit ends `done`. -/
theorem existing_units_skip_transfer
    (c : Nat) (beh : Nat → Behaviour) (recs : List FileRecord)
    (hready : ∀ r ∈ recs, r.status = Status.ready)
    (hex : ∀ i, (beh i).existsRemote = true)
    (hsettle : ∀ i, (beh i).late = false ∨ (beh i).settles = true) :
    (finalState c true beh recs).transferInvocations = [] ∧
    (finalState c true beh recs).records.all (fun r => r.status == Status.done) = true := by
  constructor
  · rw [finalState, runState_invocations_all_exist beh hex]
    rfl
  · rw [List.all_eq_true]
    intro x hx
    obtain ⟨i, hi⟩ := List.mem_iff_getElem?.mp hx
    rw [finalState_get] at hi
    cases hr : recs[i]? with
    | none => rw [hr] at hi; cases hi
    | some r =>
      rw [hr] at hi
      have hrmem : r ∈ recs := List.mem_iff_getElem?.mpr ⟨i, hr⟩
      have hrs : r.status = Status.ready := hready r hrmem
      have hlns : ((beh i).late && !(beh i).settles) = false := by
        rcases hsettle i with h1 | h1 <;> simp [h1]
      have hx' : x = finalRecord true (beh i) r := by
        simpa using hi.symm
      rw [hx', finalRecord, if_pos hrs, if_neg (by rw [hlns]; exact Bool.false_ne_true)]
      simp [settledRecord, settledStatus, hex i]

/-- Witness for C6: two ready units, existence check on, both already in the
destination: no transfer invocations and both end `done`. -/
theorem existing_units_skip_transfer_witness :
    (finalState 2 true
        (fun _ => { existsRemote := true, result := TransferResult.ok,
                    late := false, settles := false })
        [sampleRecord "a" 5, sampleRecord "b" 3]).transferInvocations = [] ∧
    (finalState 2 true
        (fun _ => { existsRemote := true, result := TransferResult.ok,
                    late := false, settles := false })
        [sampleRecord "a" 5, sampleRecord "b" 3]).records.all
      (fun r => r.status == Status.done) = true :=
  existing_units_skip_transfer 2 _ _ (by decide) (fun _ => rfl) (fun _ => Or.inl rfl)

/-!
Status monotonicity: along any run, a unit's status only ever moves along the
edges ready→transfer, transfer→done, transfer→failed. -/

/-- The allowed status evolutions between two consecutive instants. -/
def statusTransitionOK (a b : Status) : Prop :=
  a = b ∨ (a = Status.ready ∧ b = Status.transfer) ∨
    (a = Status.transfer ∧ b = Status.done) ∨
    (a = Status.transfer ∧ b = Status.failed)

theorem append_cons_eq_singleton {α : Type} {A B : List α} {e x : α}
    (h : A ++ e :: B = [x]) : A = [] ∧ e = x ∧ B = [] := by
  cases A with
  | nil => simpa using h
  | cons a A' =>
    rw [List.cons_append] at h
    have h2 := (List.cons.injEq _ _ _ _).mp h
    exact absurd h2.2 (by cases A' <;> simp)

theorem append_cons_eq_pair {α : Type} {A B : List α} {e x y : α}
    (h : A ++ e :: B = [x, y]) :
    (A = [] ∧ e = x ∧ B = [y]) ∨ (A = [x] ∧ e = y ∧ B = []) := by
  cases A with
  | nil => left; simpa using h
  | cons a A' =>
    rw [List.cons_append] at h
    have h2 := (List.cons.injEq _ _ _ _).mp h
    rcases append_cons_eq_singleton h2.2 with ⟨hA, he, hB⟩
    right
    exact ⟨by rw [h2.1, hA], he, hB⟩

/-- The settled status is always terminal. -/
theorem settledStatus_done_or_failed (ce e : Bool) (res : TransferResult) :
    settledStatus ce e res = Status.done ∨ settledStatus ce e res = Status.failed := by
  rw [settledStatus.eq_def]
  split
  · exact Or.inl rfl
  · cases res with
    | ok => exact Or.inl rfl
    | err m => exact Or.inr rfl

theorem stateAt_succ (c : Nat) (ce : Bool) (beh : Nat → Behaviour) (recs : List FileRecord)
    (k : Nat) (hk : k < (processUploads c recs beh).length) :
    stateAt c ce beh recs (k + 1) =
      applyEvent ce beh (stateAt c ce beh recs k) ((processUploads c recs beh)[k]) := by
  rw [stateAt, stateAt, List.take_succ, List.getElem?_eq_getElem hk]
  rw [runState, runState, List.foldl_append]
  rfl

/-- Splitting the run's per-unit subtrace at an occurrence of one of its
events: the part of the subtrace already emitted strictly before position
`k`. -/
theorem filter_take_split (c : Nat) (beh : Nat → Behaviour) (recs : List FileRecord)
    (i k : Nat) :
    ((processUploads c recs beh).take k).filter (touches i) ++
        ((processUploads c recs beh).drop k).filter (touches i) =
      (processUploads c recs beh).filter (touches i) := by
  rw [← List.filter_append, List.take_append_drop]

theorem stateAt_get (c : Nat) (ce : Bool) (beh : Nat → Behaviour) (recs : List FileRecord)
    (k i : Nat) :
    (stateAt c ce beh recs k).records[i]? =
      (runState ce beh (initState recs)
        (((processUploads c recs beh).take k).filter (touches i))).records[i]? := by
  rw [stateAt, runState_get_filter]

/-- C4: per-unit status transitions are monotone one-way: between any two
consecutive instants of any run, a unit's status is unchanged or moves along
ready→transfer, transfer→done, or transfer→failed; in particular no step
leaves `done` or `failed`. -/
theorem status_transitions_monotone (c : Nat) (ce : Bool) (beh : Nat → Behaviour)
    (recs : List FileRecord) (k i : Nat) :
    statusTransitionOK (statusIn (stateAt c ce beh recs k) i)
      (statusIn (stateAt c ce beh recs (k + 1)) i) := by
  by_cases hk : k < (processUploads c recs beh).length
  · rw [stateAt_succ c ce beh recs k hk]
    generalize he : (processUploads c recs beh)[k] = e
    have hmem : e ∈ processUploads c recs beh := he ▸ List.getElem_mem hk
    have hdrop : (processUploads c recs beh).drop k =
        e :: (processUploads c recs beh).drop (k + 1) := by
      rw [← he]
      exact List.drop_eq_getElem_cons hk
    by_cases ht : touches i e = true
    · -- the event touches unit i: it is a skip, launch, or settle of i
      have hsplitter := filter_take_split c beh recs i k
      rw [hdrop, List.filter_cons, if_pos ht] at hsplitter
      cases e with
      | timeout => exact absurd ht (by simp [touches])
      | skip j =>
        -- a skip leaves every record unchanged
        have : (applyEvent ce beh (stateAt c ce beh recs k) (Event.skip j)).records =
            (stateAt c ce beh recs k).records := rfl
        left
        rw [statusIn, statusIn, this]
      | launch j =>
        have hji : j = i := by simpa [touches] using ht
        subst hji
        have hready : readyAt recs j = true := launch_mem_ready c beh recs j hmem
        obtain ⟨r, hr, hrs⟩ : ∃ r, recs[j]? = some r ∧ r.status = Status.ready := by
          rw [readyAt] at hready
          cases hq : recs[j]? with
          | none => rw [hq] at hready; cases hready
          | some r =>
            rw [hq] at hready
            exact ⟨r, rfl, by simpa using hready⟩
        have hj : j < recs.length := (List.getElem?_eq_some_iff.mp hr).1
        have hfull := processUploads_filter_touches c beh recs j
        rw [if_pos hj, subtraceSpec, if_neg (by rw [hready]; simp)] at hfull
        -- before the launch, the subtrace of j is empty, so its record is initial
        have hpre : (stateAt c ce beh recs k).records[j]? = some r := by
          rw [stateAt_get]
          by_cases hlns : ((beh j).late && !(beh j).settles) = true
          · rw [if_pos hlns] at hfull
            rw [hfull] at hsplitter
            rcases append_cons_eq_singleton hsplitter with ⟨hA, _, _⟩
            rw [hA]
            exact hr
          · rw [if_neg hlns] at hfull
            rw [hfull] at hsplitter
            rcases append_cons_eq_pair hsplitter with ⟨hA, _, _⟩ | ⟨_, hlx, _⟩
            · rw [hA]
              exact hr
            · cases hlx
        have hpost : (applyEvent ce beh (stateAt c ce beh recs k)
            (Event.launch j)).records[j]? = some { r with status := Status.transfer } := by
          rw [applyEvent_launch_eq]
          simp only
          rw [updateRecord_get_self, hpre]
          rfl
        right; left
        rw [statusIn, statusIn, hpre, hpost]
        exact ⟨hrs, rfl⟩
      | settle j =>
        have hji : j = i := by simpa [touches] using ht
        subst hji
        have hj : j < recs.length := settle_mem_lt c beh recs j hmem
        have hfull := processUploads_filter_touches c beh recs j
        rw [if_pos hj] at hfull
        -- the subtrace containing a settle is [launch, settle]
        have hready : readyAt recs j = true := by
          by_cases hc : readyAt recs j = false
          · rw [subtraceSpec, if_pos hc] at hfull
            rw [hfull] at hsplitter
            rcases append_cons_eq_singleton hsplitter with ⟨_, hx, _⟩
            cases hx
          · cases hcb : readyAt recs j
            · exact absurd hcb hc
            · rfl
        obtain ⟨r, hr, hrs⟩ : ∃ r, recs[j]? = some r ∧ r.status = Status.ready := by
          rw [readyAt] at hready
          cases hq : recs[j]? with
          | none => rw [hq] at hready; cases hready
          | some r =>
            rw [hq] at hready
            exact ⟨r, rfl, by simpa using hready⟩
        rw [subtraceSpec, if_neg (by rw [hready]; simp)] at hfull
        have hAeq : ((processUploads c recs beh).take k).filter (touches j) =
            [Event.launch j] := by
          by_cases hlns : ((beh j).late && !(beh j).settles) = true
          · rw [if_pos hlns] at hfull
            rw [hfull] at hsplitter
            rcases append_cons_eq_singleton hsplitter with ⟨_, hx, _⟩
            cases hx
          · rw [if_neg hlns] at hfull
            rw [hfull] at hsplitter
            rcases append_cons_eq_pair hsplitter with ⟨_, hx, _⟩ | ⟨hA, _, _⟩
            · cases hx
            · exact hA
        have hpre : (stateAt c ce beh recs k).records[j]? =
            some { r with status := Status.transfer } := by
          rw [stateAt_get, hAeq, runState_launch_get, initState_get, hr]
          rfl
        have hpost : (applyEvent ce beh (stateAt c ce beh recs k)
            (Event.settle j)).records[j]? =
            some (settledRecord ce (beh j).existsRemote (beh j).result
              { r with status := Status.transfer }) := by
          rw [applyEvent_settle_eq, hpre]
          simp [List.getElem?_set_self', hpre]
        rw [statusIn, statusIn, hpre, hpost]
        by_cases hdone : settledStatus ce (beh j).existsRemote (beh j).result = Status.done
        · right; right; left
          exact ⟨rfl, hdone⟩
        · right; right; right
          refine ⟨rfl, ?_⟩
          rcases settledStatus_done_or_failed ce (beh j).existsRemote (beh j).result
            with h1 | h1
          · exact absurd h1 hdone
          · exact h1
    · -- an event not touching i leaves its record unchanged
      left
      have hf : touches i e = false := by
        cases hc : touches i e
        · rfl
        · exact absurd hc ht
      rw [statusIn, statusIn, applyEvent_get_untouched ce beh _ e i hf]
  · -- past the end of the run both prefixes are the whole run
    left
    have hle : (processUploads c recs beh).length ≤ k := Nat.le_of_not_lt hk
    rw [stateAt, stateAt, List.take_of_length_le hle,
      List.take_of_length_le (Nat.le_succ_of_le hle)]

/-!
The byte counter: `totalBytesUploaded` accumulates exactly the sizes of the
units that settle `done`. -/

theorem readyAt_lt (recs : List FileRecord) (i : Nat) (h : readyAt recs i = true) :
    i < recs.length := by
  rw [readyAt] at h
  cases hq : recs[i]? with
  | none => rw [hq] at h; cases h
  | some r => exact (List.getElem?_eq_some_iff.mp hq).1

theorem applyEvent_get_size (ce : Bool) (beh : Nat → Behaviour) (s : UploadState)
    (e : Event) (i : Nat) :
    (applyEvent ce beh s e).records[i]?.map (fun r => r.size) =
      s.records[i]?.map (fun r => r.size) := by
  cases e with
  | skip j => rfl
  | timeout => rfl
  | launch j =>
    rw [applyEvent_launch_eq]
    by_cases hji : j = i
    · subst hji
      rw [updateRecord_get_self]
      cases s.records[j]? <;> rfl
    · rw [updateRecord_get_ne _ _ _ _ hji]
  | settle j =>
    rw [applyEvent_settle_eq]
    cases hr : s.records[j]? with
    | none => rfl
    | some r =>
      by_cases hji : j = i
      · subst hji
        rw [List.getElem?_set_self', hr]
        rfl
      · rw [List.getElem?_set_ne hji]

/-- Size of the byte-counter bump an event causes, read off the initial
records (unit sizes never change during a run). -/
def settleAmount (ce : Bool) (beh : Nat → Behaviour) (recs : List FileRecord) : Event → Nat
  | Event.settle i =>
      match recs[i]? with
      | some r =>
          if settledStatus ce (beh i).existsRemote (beh i).result = Status.done then r.size
          else 0
      | none => 0
  | Event.skip _ => 0
  | Event.launch _ => 0
  | Event.timeout => 0

theorem runState_bytes (ce : Bool) (beh : Nat → Behaviour) (recs : List FileRecord) :
    ∀ (p : List Event) (s : UploadState),
      (∀ i : Nat, s.records[i]?.map (fun r => r.size) = recs[i]?.map (fun r => r.size)) →
      (runState ce beh s p).totalBytesUploaded =
        s.totalBytesUploaded + (p.map (settleAmount ce beh recs)).sum := by
  intro p
  induction p with
  | nil => intro s _; simp [runState]
  | cons e p ih =>
    intro s hsz
    have hsz' : ∀ i : Nat, (applyEvent ce beh s e).records[i]?.map (fun r => r.size) =
        recs[i]?.map (fun r => r.size) := by
      intro i
      rw [applyEvent_get_size]
      exact hsz i
    show (runState ce beh (applyEvent ce beh s e) p).totalBytesUploaded = _
    rw [ih _ hsz', List.map_cons, List.sum_cons]
    cases e with
    | skip j =>
      show s.totalBytesUploaded + _ = _
      simp [settleAmount]
    | launch j =>
      rw [applyEvent_launch_eq]
      simp [settleAmount]
    | timeout =>
      show s.totalBytesUploaded + _ = _
      simp [settleAmount]
    | settle j =>
      rw [applyEvent_settle_eq]
      cases hr : s.records[j]? with
      | none =>
        have hn : recs[j]? = none := by
          have := hsz j
          rw [hr] at this
          exact Option.map_eq_none'.mp this.symm
        simp [settleAmount, hn]
      | some r =>
        obtain ⟨r0, hr0, hsz0⟩ : ∃ r0, recs[j]? = some r0 ∧ r0.size = r.size := by
          have := hsz j
          rw [hr] at this
          cases hq : recs[j]? with
          | none => rw [hq] at this; cases this
          | some r0 =>
            rw [hq] at this
            exact ⟨r0, rfl, by simpa using this.symm⟩
        show s.totalBytesUploaded +
            (if settledStatus ce (beh j).existsRemote (beh j).result = Status.done then
              r.size else 0) + _ = _
        rw [settleAmount, hr0]
        show s.totalBytesUploaded +
            (if settledStatus ce (beh j).existsRemote (beh j).result = Status.done then
              r.size else 0) + (List.map (settleAmount ce beh recs) p).sum =
          s.totalBytesUploaded +
            ((if settledStatus ce (beh j).existsRemote (beh j).result = Status.done then
              r0.size else 0) + (List.map (settleAmount ce beh recs) p).sum)
        rw [hsz0]
        ring

/-- Index settled by a settle event, if any. -/
def settleIdx : Event → Option Nat
  | Event.settle i => some i
  | Event.skip _ => none
  | Event.launch _ => none
  | Event.timeout => none

theorem map_settleAmount_sum (ce : Bool) (beh : Nat → Behaviour) (recs : List FileRecord)
    (p : List Event) :
    (p.map (settleAmount ce beh recs)).sum =
      ((p.filterMap settleIdx).map
        (fun i => settleAmount ce beh recs (Event.settle i))).sum := by
  induction p with
  | nil => rfl
  | cons e p ih =>
    cases e with
    | settle j => simp [settleIdx, ih]
    | skip j => simp [settleIdx, settleAmount, ih]
    | launch j => simp [settleIdx, settleAmount, ih]
    | timeout => simp [settleIdx, settleAmount, ih]

/-- Whether a unit's transfer eventually settles during the run: it must be
`ready` at dispatch and not be an abandoned transfer that never completes. -/
def settledCond (beh : Nat → Behaviour) (recs : List FileRecord) (i : Nat) : Bool :=
  readyAt recs i && !((beh i).late && !(beh i).settles)

theorem settle_mem_iff (c : Nat) (beh : Nat → Behaviour) (recs : List FileRecord) (i : Nat) :
    Event.settle i ∈ processUploads c recs beh ↔ settledCond beh recs i = true := by
  constructor
  · intro h
    have hi : i < recs.length := settle_mem_lt c beh recs i h
    have hmem : Event.settle i ∈ (processUploads c recs beh).filter (touches i) :=
      List.mem_filter.mpr ⟨h, by simp [touches]⟩
    rw [processUploads_filter_touches, if_pos hi, subtraceSpec] at hmem
    by_cases hready : readyAt recs i = false
    · rw [if_pos hready] at hmem
      simp at hmem
    · have hrt : readyAt recs i = true := by
        cases hc : readyAt recs i
        · exact absurd hc hready
        · rfl
      rw [if_neg hready] at hmem
      by_cases hlns : ((beh i).late && !(beh i).settles) = true
      · rw [if_pos hlns] at hmem
        simp at hmem
      · have hlf : ((beh i).late && !(beh i).settles) = false := by
          cases hc : ((beh i).late && !(beh i).settles)
          · rfl
          · exact absurd hc hlns
        rw [settledCond, hrt, hlf]
        rfl
  · intro h
    have hrt : readyAt recs i = true := by
      rw [settledCond] at h
      exact (Bool.and_eq_true_iff.mp h).1
    have hlf : ((beh i).late && !(beh i).settles) = false := by
      rw [settledCond] at h
      have := (Bool.and_eq_true_iff.mp h).2
      cases hc : ((beh i).late && !(beh i).settles)
      · rfl
      · rw [hc] at this; simp at this
    have hi : i < recs.length := readyAt_lt recs i hrt
    have hft := processUploads_filter_touches c beh recs i
    rw [if_pos hi, subtraceSpec, if_neg (by rw [hrt]; simp),
      if_neg (by rw [hlf]; simp)] at hft
    have hmem : Event.settle i ∈ (processUploads c recs beh).filter (touches i) := by
      rw [hft]
      exact List.mem_cons_of_mem _ (List.mem_cons_self _ _)
    exact List.mem_of_mem_filter hmem

theorem count_settleIdx (p : List Event) (i : Nat) :
    (p.filterMap settleIdx).count i = p.count (Event.settle i) := by
  rw [List.count_filterMap]
  have hfun : (fun e => settleIdx e == some i) = (fun e => e == Event.settle i) := by
    funext e
    cases e with
    | settle j => simp [settleIdx]
    | skip j => simp [settleIdx]
    | launch j => simp [settleIdx]
    | timeout => simp [settleIdx]
  rw [List.count, hfun]

theorem count_settle_le_one (c : Nat) (beh : Nat → Behaviour) (recs : List FileRecord)
    (i : Nat) : (processUploads c recs beh).count (Event.settle i) ≤ 1 := by
  have hc : (processUploads c recs beh).count (Event.settle i) =
      ((processUploads c recs beh).filter (touches i)).count (Event.settle i) :=
    (List.count_filter (by simp [touches])).symm
  rw [hc, processUploads_filter_touches]
  by_cases hi : i < recs.length
  · rw [if_pos hi, subtraceSpec]
    split
    · simp [List.count_cons]
    · split <;> simp [List.count_cons]
  · rw [if_neg hi]
    simp

theorem settleIdxs_nodup (c : Nat) (beh : Nat → Behaviour) (recs : List FileRecord) :
    ((processUploads c recs beh).filterMap settleIdx).Nodup := by
  rw [List.nodup_iff_count_le_one]
  intro i
  rw [count_settleIdx]
  exact count_settle_le_one c beh recs i

theorem mem_settleIdxs (c : Nat) (beh : Nat → Behaviour) (recs : List FileRecord) (i : Nat) :
    i ∈ (processUploads c recs beh).filterMap settleIdx ↔
      settledCond beh recs i = true := by
  rw [← settle_mem_iff c beh recs i]
  constructor
  · intro h
    obtain ⟨e, he, hei⟩ := List.mem_filterMap.mp h
    cases e with
    | settle j =>
      have : j = i := by simpa [settleIdx] using hei
      subst this
      exact he
    | skip j => simp [settleIdx] at hei
    | launch j => simp [settleIdx] at hei
    | timeout => simp [settleIdx] at hei
  · intro h
    exact List.mem_filterMap.mpr ⟨Event.settle i, h, rfl⟩

/-- The settled units of a run are, up to order, the in-range indices
satisfying `settledCond`. -/
theorem settleIdxs_perm (c : Nat) (beh : Nat → Behaviour) (recs : List FileRecord) :
    ((processUploads c recs beh).filterMap settleIdx).Perm
      ((List.range recs.length).filter (settledCond beh recs)) := by
  have hnd1 := settleIdxs_nodup c beh recs
  have hnd2 : ((List.range recs.length).filter (settledCond beh recs)).Nodup :=
    (List.nodup_range _).filter _
  refine List.Subperm.antisymm ?_ ?_
  · refine List.subperm_of_subset hnd1 ?_
    intro i hi
    have hcond := (mem_settleIdxs c beh recs i).mp hi
    refine List.mem_filter.mpr ⟨List.mem_range.mpr ?_, hcond⟩
    exact readyAt_lt recs i (Bool.and_eq_true_iff.mp hcond).1
  · refine List.subperm_of_subset hnd2 ?_
    intro i hi
    exact (mem_settleIdxs c beh recs i).mpr (List.mem_filter.mp hi).2

theorem filter_map_sum_if (q : Nat → Bool) (f : Nat → Nat) (l : List Nat) :
    ((l.filter q).map f).sum = (l.map (fun i => if q i then f i else 0)).sum := by
  induction l with
  | nil => rfl
  | cons x xs ih =>
    rw [List.filter_cons]
    by_cases hx : q x = true
    · rw [if_pos hx]
      simp [ih, hx]
    · have hxf : q x = false := by
        cases hc : q x
        · rfl
        · exact absurd hc hx
      rw [hxf]
      simp [ih, hxf]

theorem map_sum_index (g : FileRecord → Nat) (rs : List FileRecord) :
    (rs.map g).sum =
      ((List.range rs.length).map (fun i =>
        match rs[i]? with
        | some r => g r
        | none => 0)).sum := by
  induction rs with
  | nil => rfl
  | cons r rs ih =>
    rw [List.length_cons, List.range_succ_eq_map, List.map_cons, List.sum_cons,
      List.map_cons, List.sum_cons, List.map_map]
    have harm : ((fun i =>
        match (r :: rs)[i]? with
        | some r => g r
        | none => 0) ∘ Nat.succ) = (fun i =>
        match rs[i]? with
        | some r => g r
        | none => 0) := by
      funext i
      simp [Function.comp, List.getElem?_cons_succ]
    rw [harm, ← ih, List.getElem?_cons_zero]

/-- Counterexample to C7 as stated: a unit already `done` when the scheduler
runs is skipped and contributes nothing to the byte counter, yet its terminal
status is `done`; the counter (0) differs from the sum of the sizes of the
`done` units (5). -/
theorem bytes_counter_counterexample :
    (finalState 1 false behPrompt
        [{ sampleRecord "a" 5 with status := Status.done }]).totalBytesUploaded = 0 ∧
    doneSizes (finalState 1 false behPrompt
        [{ sampleRecord "a" 5 with status := Status.done }]).records = 5 ∧
    (0 : Nat) ≠ 5 := by
  refine ⟨by decide, by decide, by decide⟩

/-- C7 as amended: for a run over units that all start `ready`, the final
`totalBytesUploaded` equals the sum of the sizes of exactly the units whose
terminal status is `done` — a unit that settles with any other status, or
never settles, contributes nothing. -/
theorem bytes_equal_done_sizes (c : Nat) (ce : Bool) (beh : Nat → Behaviour)
    (recs : List FileRecord) (hready : ∀ r ∈ recs, r.status = Status.ready) :
    (finalState c ce beh recs).totalBytesUploaded =
      doneSizes (finalState c ce beh recs).records := by
  have hlen : (finalState c ce beh recs).records.length = recs.length :=
    runState_records_length ce beh (initState recs) (processUploads c recs beh)
  have hbytes : (finalState c ce beh recs).totalBytesUploaded =
      (initState recs).totalBytesUploaded +
        ((processUploads c recs beh).map (settleAmount ce beh recs)).sum :=
    runState_bytes ce beh recs (processUploads c recs beh) (initState recs) (fun i => rfl)
  rw [hbytes]
  rw [map_settleAmount_sum, (settleIdxs_perm c beh recs).map
    (fun i => settleAmount ce beh recs (Event.settle i)) |>.sum_eq]
  rw [filter_map_sum_if]
  rw [doneSizes, map_sum_index, hlen]
  show 0 + _ = _
  rw [Nat.zero_add]
  refine congrArg List.sum ?_
  refine List.map_congr_left ?_
  intro i hmem
  have hi : i < recs.length := List.mem_range.mp hmem
  obtain ⟨r, hr⟩ : ∃ r, recs[i]? = some r := ⟨recs[i], List.getElem?_eq_getElem hi⟩
  have hrs : r.status = Status.ready := hready r (List.mem_iff_getElem?.mpr ⟨i, hr⟩)
  have hrt : readyAt recs i = true := by
    rw [readyAt, hr]
    simp [hrs]
  have hfin : (finalState c ce beh recs).records[i]? =
      some (finalRecord ce (beh i) r) := by
    rw [finalState_get, hr]
    rfl
  rw [hfin, settledCond, hrt, settleAmount, hr, finalRecord, if_pos hrs]
  by_cases hlns : ((beh i).late && !(beh i).settles) = true
  · rw [if_pos hlns, hlns]
    simp
  · have hlf : ((beh i).late && !(beh i).settles) = false := by
      cases hc : ((beh i).late && !(beh i).settles)
      · rfl
      · exact absurd hc hlns
    rw [if_neg hlns, hlf]
    show (if settledStatus ce (beh i).existsRemote (beh i).result = Status.done then
        r.size else 0) =
      (if (settledRecord ce (beh i).existsRemote (beh i).result r).status = Status.done then
        (settledRecord ce (beh i).existsRemote (beh i).result r).size else 0)
    rfl

/-- Witness for the amended C7: two ready units, one succeeding and one
failing: the byte counter equals the size of the single `done` unit. -/
theorem bytes_equal_done_sizes_witness :
    (finalState 2 false
        (fun i => if i = 0 then
            { existsRemote := false, result := TransferResult.ok,
              late := false, settles := false }
          else
            { existsRemote := false, result := TransferResult.err "denied",
              late := false, settles := false })
        [sampleRecord "a" 5, sampleRecord "b" 3]).totalBytesUploaded =
      doneSizes (finalState 2 false
        (fun i => if i = 0 then
            { existsRemote := false, result := TransferResult.ok,
              late := false, settles := false }
          else
            { existsRemote := false, result := TransferResult.err "denied",
              late := false, settles := false })
        [sampleRecord "a" 5, sampleRecord "b" 3]).records :=
  bytes_equal_done_sizes 2 false _ _ (by decide)

/-!
C2: relating the number of units in `transfer` status to the concurrency
width.  A unit is in `transfer` exactly between its launch and its settle;
every launched transfer settles inside its own round (`execAsync`'s per-item
rejection timer fires strictly before the round deadline), so the in-flight
count of every prefix is bounded by the width. -/

/-- Whether unit `i` has been launched but not settled within the prefix. -/
def inflightAt (p : List Event) (i : Nat) : Bool :=
  decide (Event.launch i ∈ p) && !decide (Event.settle i ∈ p)

theorem append_eq_singleton_left {α : Type} {A B : List α} {x : α}
    (h : A ++ B = [x]) : A = [] ∨ A = [x] := by
  cases A with
  | nil => exact Or.inl rfl
  | cons a A' =>
    rw [List.cons_append] at h
    have h2 := (List.cons.injEq _ _ _ _).mp h
    rcases List.append_eq_nil.mp h2.2 with ⟨hA, _⟩
    right
    rw [h2.1, hA]

theorem append_eq_pair_left {α : Type} {A B : List α} {x y : α}
    (h : A ++ B = [x, y]) : A = [] ∨ A = [x] ∨ A = [x, y] := by
  cases A with
  | nil => exact Or.inl rfl
  | cons a A' =>
    rw [List.cons_append] at h
    have h2 := (List.cons.injEq _ _ _ _).mp h
    cases A' with
    | nil =>
      right; left
      rw [h2.1]
    | cons a2 A'' =>
      rw [List.cons_append] at h2
      have h3 := (List.cons.injEq _ _ _ _).mp h2.2
      right; right
      rcases List.append_eq_nil.mp h3.2 with ⟨hA, _⟩
      rw [h2.1, h3.1, hA]

/-- A unit counts toward the in-`transfer` total of an instant only if it is
in flight (launched, not settled) in the prefix of events so far. -/
theorem status_transfer_le_inflight (c : Nat) (ce : Bool) (beh : Nat → Behaviour)
    (recs : List FileRecord) (m i : Nat)
    (hnotrans : ∀ r ∈ recs, r.status ≠ Status.transfer)
    (hnolate : ∀ j, (beh j).late = false) :
    (match (stateAt c ce beh recs m).records[i]? with
     | some r => if r.status = Status.transfer then 1 else 0
     | none => 0) ≤
      (if inflightAt ((processUploads c recs beh).take m) i then 1 else 0) := by
  by_cases hi : i < recs.length
  · obtain ⟨r, hr⟩ : ∃ r, recs[i]? = some r := ⟨recs[i], List.getElem?_eq_getElem hi⟩
    have hrs : r.status ≠ Status.transfer := hnotrans r (List.mem_iff_getElem?.mpr ⟨i, hr⟩)
    have hfull := processUploads_filter_touches c beh recs i
    rw [if_pos hi, subtraceSpec] at hfull
    have hsplitter := filter_take_split c beh recs i m
    have hget := stateAt_get c ce beh recs m i
    by_cases hrt : readyAt recs i = true
    case neg =>
      -- dequeued but not `ready`: skipped, record (hence status) unchanged
      have hrf : readyAt recs i = false := by
        revert hrt
        cases readyAt recs i <;> simp
      rw [if_pos hrf] at hfull
      rw [hfull] at hsplitter
      have hrec : (stateAt c ce beh recs m).records[i]? = some r := by
        rcases append_eq_singleton_left hsplitter with hA | hA
        · rw [hget, hA]
          exact hr
        · rw [hget, hA, runState_skip_records]
          exact hr
      rw [hrec]
      simp [hrs]
    case pos =>
      rw [if_neg (by rw [hrt]; simp), if_neg (by rw [hnolate i]; simp)] at hfull
      rw [hfull] at hsplitter
      rcases append_eq_pair_left hsplitter with hA | hA | hA
      · -- not yet dispatched: still in its initial, non-`transfer`, status
        rw [hA] at hget
        have hrec : (stateAt c ce beh recs m).records[i]? = some r := by
          rw [hget]
          exact hr
        rw [hrec]
        simp [hrs]
      · -- launched, not settled: in `transfer`, and in flight in the prefix
        have hlaunch : Event.launch i ∈ (processUploads c recs beh).take m := by
          have : Event.launch i ∈
              ((processUploads c recs beh).take m).filter (touches i) := by
            rw [hA]
            exact List.mem_cons_self _ _
          exact List.mem_of_mem_filter this
        have hsettle : Event.settle i ∉ (processUploads c recs beh).take m := by
          intro hc
          have : Event.settle i ∈
              ((processUploads c recs beh).take m).filter (touches i) :=
            List.mem_filter.mpr ⟨hc, by simp [touches]⟩
          rw [hA] at this
          simp at this
        have : inflightAt ((processUploads c recs beh).take m) i = true := by
          rw [inflightAt]
          simp [hlaunch, hsettle]
        rw [this]
        rw [hA, runState_launch_get, initState_get, hr] at hget
        rw [hget]
        simp
      · -- settled: terminal status, not `transfer`
        rw [hA, runState_launch_settle_get, initState_get, hr] at hget
        rw [hget]
        simp only [Option.map_some']
        rcases settledStatus_done_or_failed ce (beh i).existsRemote (beh i).result
          with h1 | h1 <;>
          simp [settledRecord, h1]
  · have hnone : (stateAt c ce beh recs m).records[i]? = none := by
      rw [stateAt]
      apply List.getElem?_eq_none
      rw [runState_records_length]
      exact Nat.le_of_not_lt hi
    rw [hnone]
    exact Nat.zero_le _

theorem sum_if_mem_eq_filter_length (B : List Nat) :
    ∀ l : List Nat, (l.map (fun i => if i ∈ B then (1 : Nat) else 0)).sum =
      (l.filter (fun i => decide (i ∈ B))).length := by
  intro l
  induction l with
  | nil => rfl
  | cons x xs ih =>
    rw [List.map_cons, List.sum_cons, List.filter_cons]
    by_cases hx : x ∈ B
    · simp [hx, ih]
      omega
    · simp [hx, ih]

theorem sum_if_mem_le (l B : List Nat) (hl : l.Nodup) :
    (l.map (fun i => if i ∈ B then (1 : Nat) else 0)).sum ≤ B.length := by
  rw [sum_if_mem_eq_filter_length]
  have hnd : (l.filter (fun i => decide (i ∈ B))).Nodup := hl.filter _
  have hsub : (l.filter (fun i => decide (i ∈ B))) ⊆ B := by
    intro x hx
    exact of_decide_eq_true (List.mem_filter.mp hx).2
  exact (List.subperm_of_subset hnd hsub).length_le

theorem mem_map_launch (l : List Nat) (i : Nat) :
    Event.launch i ∈ l.map Event.launch ↔ i ∈ l := by
  simp

theorem not_launch_mem_settles (l : List Nat) (i : Nat) :
    Event.launch i ∉ l.map Event.settle := by
  simp

theorem mem_map_settle (l : List Nat) (i : Nat) :
    Event.settle i ∈ l.map Event.settle ↔ i ∈ l := by
  simp

theorem not_settle_mem_launches (l : List Nat) (i : Nat) :
    Event.settle i ∉ l.map Event.launch := by
  simp

/-- Summing a constant zero. -/
theorem sum_map_zero {α : Type} (l : List α) : (l.map (fun _ => (0 : Nat))).sum = 0 := by
  induction l with
  | nil => rfl
  | cons x xs ih => simpa using ih

theorem inflight_sum_nil (n m : Nat) :
    ((List.range n).map (fun i =>
      if inflightAt (List.take m ([] : List Event)) i then (1 : Nat) else 0)).sum = 0 := by
  have h : ((List.range n).map (fun i =>
      if inflightAt (List.take m ([] : List Event)) i then (1 : Nat) else 0)) =
      (List.range n).map (fun _ => (0 : Nat)) :=
    List.map_congr_left (fun i _ => by simp [inflightAt])
  rw [h, sum_map_zero]

/-- A launch event among a round's dispatch events names a dequeued index
that was `ready` at dispatch time. -/
theorem launch_mem_map_dispatch (recs : List FileRecord) (l : List Nat) (i : Nat)
    (h : Event.launch i ∈ l.map
      (fun x => if readyAt recs x then Event.launch x else Event.skip x)) :
    i ∈ l ∧ readyAt recs i = true := by
  obtain ⟨x, hx, hex⟩ := List.mem_map.mp h
  have hex' : (if readyAt recs x then Event.launch x else Event.skip x) =
      Event.launch i := hex
  by_cases hrx : readyAt recs x = true
  · rw [if_pos hrx] at hex'
    injection hex' with hxi
    subst hxi
    exact ⟨hx, hrx⟩
  · rw [if_neg hrx] at hex'
    exact Event.noConfusion hex'

/-- A round's dispatch events contain no settle events. -/
theorem settle_not_mem_map_dispatch (recs : List FileRecord) (l : List Nat) (i : Nat) :
    Event.settle i ∉ l.map
      (fun x => if readyAt recs x then Event.launch x else Event.skip x) := by
  intro h
  obtain ⟨x, hx, hex⟩ := List.mem_map.mp h
  have hex' : (if readyAt recs x then Event.launch x else Event.skip x) =
      Event.settle i := hex
  by_cases hrx : readyAt recs x = true
  · rw [if_pos hrx] at hex'
    exact Event.noConfusion hex'
  · rw [if_neg hrx] at hex'
    exact Event.noConfusion hex'

/-- Core bound for C2: whatever the units' initial statuses, when no launched
transfer outlives its round — the situation `execAsync`'s per-item rejection
timer forces — at every instant the number of launched-but-unsettled units is
at most the concurrency width. -/
theorem inflight_round_bound (c : Nat) (beh : Nat → Behaviour) (recs : List FileRecord)
    (hc : 1 ≤ c)
    (hnolate : ∀ i, (beh i).late = false) :
    ∀ (fuel : Nat) (q : List Nat), q.Nodup → (∀ x ∈ q, x < recs.length) →
      ∀ (m : Nat),
      ((List.range recs.length).map (fun i =>
        if inflightAt ((runAux c beh recs fuel q []).take m) i then 1 else 0)).sum ≤ c := by
  intro fuel
  induction fuel with
  | zero =>
    intro q hq hqlt m
    cases q with
    | nil =>
      simp only [show runAux c beh recs 0 ([] : List Nat) [] = ([] : List Event) from rfl]
      rw [inflight_sum_nil]
      exact Nat.zero_le c
    | cons j q' =>
      simp only [show runAux c beh recs 0 (j :: q') [] = ([] : List Event) from rfl]
      rw [inflight_sum_nil]
      exact Nat.zero_le c
  | succ fuel ih =>
    intro q hq hqlt m
    cases q with
    | nil =>
      simp only [show runAux c beh recs (fuel + 1) ([] : List Nat) [] = ([] : List Event)
        from rfl]
      rw [inflight_sum_nil]
      exact Nat.zero_le c
    | cons j q' =>
      have hq' : q'.Nodup := (List.nodup_cons.mp hq).2
      have hinR : ((j :: q'.take (min c (q'.length + 1) - 1)).filter
            (fun x => readyAt recs x)).filter
            (fun x => !(beh x).late) = (j :: q'.take (min c (q'.length + 1) - 1)).filter
            (fun x => readyAt recs x) :=
        List.filter_eq_self.mpr (fun a _ => by rw [hnolate a]; rfl)
      have hlats : ((j :: q'.take (min c (q'.length + 1) - 1)).filter
            (fun x => readyAt recs x)).filter
            (fun x => (beh x).late) = [] :=
        List.filter_eq_nil_iff.mpr (fun a _ => by rw [hnolate a]; simp)
      have htrace : runAux c beh recs (fuel + 1) (j :: q') [] =
          (j :: q'.take (min c (q'.length + 1) - 1)).map
              (fun x => if readyAt recs x then Event.launch x else Event.skip x) ++
            (((j :: q'.take (min c (q'.length + 1) - 1)).filter
                (fun x => readyAt recs x)).map Event.settle ++
              runAux c beh recs fuel (q'.drop (min c (q'.length + 1) - 1)) []) := by
        simp only [runAux]
        rw [hinR, hlats]
        simp
      have hBlen : (j :: q'.take (min c (q'.length + 1) - 1)).length ≤ c := by
        have h1 : min c (q'.length + 1) ≤ c := Nat.min_le_left _ _
        have h2 : 1 ≤ min c (q'.length + 1) :=
          Nat.le_min.mpr ⟨hc, Nat.succ_le_succ (Nat.zero_le _)⟩
        have h3 : (q'.take (min c (q'.length + 1) - 1)).length ≤
            min c (q'.length + 1) - 1 := by
          rw [List.length_take]
          exact Nat.min_le_left _ _
        rw [List.length_cons]
        omega
      simp only [htrace, List.take_append_eq_append_take, List.length_map]
      by_cases hm : m ≤ (j :: q'.take (min c (q'.length + 1) - 1)).length +
          ((j :: q'.take (min c (q'.length + 1) - 1)).filter
            (fun x => readyAt recs x)).length
      · have hzero : m - (j :: q'.take (min c (q'.length + 1) - 1)).length -
            ((j :: q'.take (min c (q'.length + 1) - 1)).filter
              (fun x => readyAt recs x)).length = 0 := by omega
        simp only [hzero, List.take_zero, List.append_nil]
        refine Nat.le_trans (List.sum_le_sum ?_)
          (Nat.le_trans (sum_if_mem_le (List.range recs.length)
            (j :: q'.take (min c (q'.length + 1) - 1)) (List.nodup_range _)) hBlen)
        intro i _
        split
        · rename_i hifl
          simp only [inflightAt] at hifl
          have hparts := Bool.and_eq_true_iff.mp hifl
          have hl := of_decide_eq_true hparts.1
          have hiB : i ∈ j :: q'.take (min c (q'.length + 1) - 1) := by
            rcases List.mem_append.mp hl with h1 | h1
            · exact (launch_mem_map_dispatch recs _ i
                ((List.take_sublist _ _).subset h1)).1
            · exact absurd ((List.take_sublist _ _).subset h1) (not_launch_mem_settles _ i)
          rw [if_pos hiB]
        · exact Nat.zero_le _
      · have hD : List.take m
              ((j :: q'.take (min c (q'.length + 1) - 1)).map
                (fun x => if readyAt recs x then Event.launch x else Event.skip x)) =
            (j :: q'.take (min c (q'.length + 1) - 1)).map
              (fun x => if readyAt recs x then Event.launch x else Event.skip x) :=
          List.take_of_length_le (by rw [List.length_map]; omega)
        have hS : List.take (m - (j :: q'.take (min c (q'.length + 1) - 1)).length)
              (((j :: q'.take (min c (q'.length + 1) - 1)).filter
                (fun x => readyAt recs x)).map Event.settle) =
            ((j :: q'.take (min c (q'.length + 1) - 1)).filter
              (fun x => readyAt recs x)).map Event.settle :=
          List.take_of_length_le (by rw [List.length_map]; omega)
        simp only [hD, hS]
        refine Nat.le_trans (List.sum_le_sum ?_)
          (ih (q'.drop (min c (q'.length + 1) - 1))
            ((List.drop_sublist _ _).nodup hq')
            (fun x hx => hqlt x (List.mem_cons_of_mem _
              ((List.drop_sublist _ _).subset hx)))
            (m - (j :: q'.take (min c (q'.length + 1) - 1)).length -
              ((j :: q'.take (min c (q'.length + 1) - 1)).filter
                (fun x => readyAt recs x)).length))
        intro i _
        split
        · rename_i hifl
          simp only [inflightAt] at hifl
          have hparts := Bool.and_eq_true_iff.mp hifl
          have hl := of_decide_eq_true hparts.1
          have hns2 : Event.settle i ∉
              (j :: q'.take (min c (q'.length + 1) - 1)).map
                  (fun x => if readyAt recs x then Event.launch x else Event.skip x) ++
                (((j :: q'.take (min c (q'.length + 1) - 1)).filter
                    (fun x => readyAt recs x)).map Event.settle ++
                  List.take (m - (j :: q'.take (min c (q'.length + 1) - 1)).length -
                      ((j :: q'.take (min c (q'.length + 1) - 1)).filter
                        (fun x => readyAt recs x)).length)
                    (runAux c beh recs fuel
                      (q'.drop (min c (q'.length + 1) - 1)) [])) := by
            intro hc2
            have h2 := hparts.2
            rw [decide_eq_true hc2] at h2
            simp at h2
          have hlp : Event.launch i ∈
              List.take (m - (j :: q'.take (min c (q'.length + 1) - 1)).length -
                  ((j :: q'.take (min c (q'.length + 1) - 1)).filter
                    (fun x => readyAt recs x)).length)
                (runAux c beh recs fuel (q'.drop (min c (q'.length + 1) - 1)) []) := by
            rcases List.mem_append.mp hl with h1 | h1
            · obtain ⟨hiB, hir⟩ := launch_mem_map_dispatch recs _ i h1
              exact absurd (List.mem_append.mpr (Or.inr (List.mem_append.mpr (Or.inl
                ((mem_map_settle _ i).mpr
                  (List.mem_filter.mpr ⟨hiB, hir⟩)))))) hns2
            · rcases List.mem_append.mp h1 with h2 | h2
              · exact absurd h2 (not_launch_mem_settles _ i)
              · exact h2
          have hsp : Event.settle i ∉
              List.take (m - (j :: q'.take (min c (q'.length + 1) - 1)).length -
                  ((j :: q'.take (min c (q'.length + 1) - 1)).filter
                    (fun x => readyAt recs x)).length)
                (runAux c beh recs fuel (q'.drop (min c (q'.length + 1) - 1)) []) :=
            fun hc2 => hns2 (List.mem_append.mpr (Or.inr
              (List.mem_append.mpr (Or.inr hc2))))
          have hfl2 : inflightAt
              (List.take (m - (j :: q'.take (min c (q'.length + 1) - 1)).length -
                  ((j :: q'.take (min c (q'.length + 1) - 1)).filter
                    (fun x => readyAt recs x)).length)
                (runAux c beh recs fuel (q'.drop (min c (q'.length + 1) - 1)) [])) i =
              true := by
            rw [inflightAt, decide_eq_true hlp, decide_eq_false hsp]
            rfl
          rw [hfl2]
          simp
        · exact Nat.zero_le _

/-- C2: for every run of the upload scheduler — any unit list, any
configured concurrency width, any behaviour of the external transfer
capability — at every instant of the run the number of units whose status is
`transfer` is at most the configured width.  `hnolate` records the code's own
guarantee that no launched transfer outlives its round: `execAsync` arms an
unconditional per-item rejection timer (60 seconds per file, 300 per folder)
that fires strictly before the round deadline (180, resp. 600 seconds), so
every launched transfer settles — on success, on a capability error, or with
the timer's timeout message — within its round, whatever the external
command does.  `hnotrans` records that units reach the scheduler `ready`
(as the scanner creates them) or already terminal, never mid-`transfer`:
`transfer` only ever arises inside a dispatch the scheduler itself performs. -/
theorem transfer_cap_bounded (c : Nat) (ce : Bool) (beh : Nat → Behaviour)
    (recs : List FileRecord) (m : Nat)
    (hnotrans : ∀ r ∈ recs, r.status ≠ Status.transfer)
    (hnolate : ∀ i, (beh i).late = false) :
    countTransfer (stateAt c ce beh recs m).records ≤ concurrentUploads c := by
  have hc1 : 1 ≤ concurrentUploads c := by
    rw [concurrentUploads]
    split
    · omega
    · omega
  have hlen : (stateAt c ce beh recs m).records.length = recs.length := by
    rw [stateAt, runState_records_length]
    rfl
  rw [countTransfer, map_sum_index, hlen]
  calc (List.map (fun i =>
        match (stateAt c ce beh recs m).records[i]? with
        | some r => if r.status = Status.transfer then 1 else 0
        | none => 0) (List.range recs.length)).sum
      ≤ ((List.range recs.length).map (fun i =>
          if inflightAt ((processUploads c recs beh).take m) i then 1 else 0)).sum :=
        List.sum_le_sum (fun i _ =>
          status_transfer_le_inflight c ce beh recs m i hnotrans hnolate)
    _ ≤ concurrentUploads c := by
        simp only [processUploads]
        exact inflight_round_bound (concurrentUploads c) beh recs hc1 hnolate
          recs.length (List.range recs.length) (List.nodup_range _)
          (fun x hx => List.mem_range.mp hx) m

/-- Witness for C2 on a concrete in-round run: three ready units at width 2,
observed right after the first round's dispatches. -/
theorem transfer_cap_bounded_witness :
    countTransfer (stateAt 2 false behPrompt
      [sampleRecord "a" 5, sampleRecord "b" 3, sampleRecord "c" 2] 2).records ≤
      concurrentUploads 2 :=
  transfer_cap_bounded 2 false behPrompt
    [sampleRecord "a" 5, sampleRecord "b" 3, sampleRecord "c" 2] 2
    (by decide) (fun _ => rfl)

/-!
C5: `execAsync`'s unconditional per-item rejection timer (60 seconds per
file, 300 per folder) fires strictly before the round deadline (180, resp.
600 seconds), so every launched transfer settles within its round and the
round-deadline race is always won by the batch: no round timeout ever
abandons a transfer, and a settled unit's record is never written again. -/

theorem statusIn_of_get (s : UploadState) (i : Nat) (r : FileRecord)
    (h : s.records[i]? = some r) : statusIn s i = r.status := by
  unfold statusIn
  rw [h]

/-- With every transfer settling inside its round — the situation
`execAsync`'s per-item rejection timer forces — the round loop never reaches
its timeout branch: no round deadline elapses with launched transfers still
outstanding. -/
theorem timeout_not_mem_runAux (c : Nat) (beh : Nat → Behaviour) (recs : List FileRecord)
    (hnolate : ∀ i, (beh i).late = false) :
    ∀ (fuel : Nat) (q pending : List Nat),
      Event.timeout ∉ runAux c beh recs fuel q pending := by
  intro fuel
  induction fuel with
  | zero =>
    intro q pending
    cases q with
    | nil =>
      intro hmem
      rcases List.mem_map.mp hmem with ⟨x, _, hx⟩
      exact Event.noConfusion hx
    | cons j q' =>
      intro hmem
      rcases List.mem_map.mp hmem with ⟨x, _, hx⟩
      exact Event.noConfusion hx
  | succ fuel ih =>
    intro q pending
    cases q with
    | nil =>
      intro hmem
      rcases List.mem_map.mp hmem with ⟨x, _, hx⟩
      exact Event.noConfusion hx
    | cons j q' =>
      have hlats : ((j :: q'.take (min c (q'.length + 1) - 1)).filter
            (fun x => readyAt recs x)).filter
            (fun x => (beh x).late) = [] :=
        List.filter_eq_nil_iff.mpr (fun a _ => by rw [hnolate a]; simp)
      intro hmem
      simp only [runAux] at hmem
      rw [hlats] at hmem
      rw [show (if ([] : List Nat).isEmpty then ([] : List Event) else [Event.timeout]) =
        ([] : List Event) from rfl] at hmem
      rw [show ([] : List Nat).filter (fun i => (beh i).settles) = ([] : List Nat)
        from rfl] at hmem
      rcases List.mem_append.mp hmem with h1 | h1
      · rcases List.mem_append.mp h1 with h2 | h2
        · rcases List.mem_append.mp h2 with h3 | h3
          · rcases List.mem_append.mp h3 with h4 | h4
            · rcases List.mem_map.mp h4 with ⟨x, _, hx⟩
              have hx' : (if readyAt recs x then Event.launch x else Event.skip x) =
                  Event.timeout := hx
              by_cases hrx : readyAt recs x = true
              · rw [if_pos hrx] at hx'
                exact Event.noConfusion hx'
              · rw [if_neg hrx] at hx'
                exact Event.noConfusion hx'
            · rcases List.mem_map.mp h4 with ⟨x, _, hx⟩
              exact Event.noConfusion hx
          · rcases List.mem_map.mp h3 with ⟨x, _, hx⟩
            exact Event.noConfusion hx
        · exact absurd h2 (List.not_mem_nil _)
      · exact ih _ _ h1

/-- Once a unit has settled into a terminal status, no later step of the run
ever changes its record: its status and error fields are final. -/
theorem terminal_record_stable (c : Nat) (ce : Bool) (beh : Nat → Behaviour)
    (recs : List FileRecord) (k k' i : Nat) (hkk : k ≤ k')
    (hterm : statusIn (stateAt c ce beh recs k) i = Status.done ∨
      statusIn (stateAt c ce beh recs k) i = Status.failed) :
    (stateAt c ce beh recs k').records[i]? = (stateAt c ce beh recs k).records[i]? := by
  by_cases hi : i < recs.length
  · obtain ⟨r, hr⟩ : ∃ r, recs[i]? = some r := ⟨recs[i], List.getElem?_eq_getElem hi⟩
    have hget := stateAt_get c ce beh recs k i
    have hget' := stateAt_get c ce beh recs k' i
    have hfull := processUploads_filter_touches c beh recs i
    rw [if_pos hi, subtraceSpec] at hfull
    have hsplit := filter_take_split c beh recs i k
    have hsplit' := filter_take_split c beh recs i k'
    rw [hfull] at hsplit hsplit'
    by_cases hrt : readyAt recs i = true
    · have hrs : r.status = Status.ready := by
        have h0 := hrt
        rw [readyAt, hr] at h0
        exact of_decide_eq_true h0
      rw [if_neg (by rw [hrt]; simp)] at hsplit hsplit'
      by_cases hlns : ((beh i).late && !(beh i).settles) = true
      · -- abandoned-transfer shape: the unit is `ready` or `transfer` at
        -- every instant, contradicting terminality at instant `k`
        exfalso
        rw [if_pos hlns] at hsplit
        rcases append_eq_singleton_left hsplit with hA | hA
        · rw [hA] at hget
          have hrec : (stateAt c ce beh recs k).records[i]? = some r := by
            rw [hget]
            exact hr
          have hst := statusIn_of_get _ i r hrec
          rcases hterm with h1 | h1 <;> rw [hst, hrs] at h1 <;>
            exact Status.noConfusion h1
        · rw [hA, runState_launch_get, initState_get, hr] at hget
          have hrec : (stateAt c ce beh recs k).records[i]? =
              some { r with status := Status.transfer } := by
            rw [hget]
            rfl
          have hst := statusIn_of_get _ i _ hrec
          rcases hterm with h1 | h1 <;> rw [hst] at h1 <;>
            exact Status.noConfusion h1
      · rw [if_neg hlns] at hsplit hsplit'
        rcases append_eq_pair_left hsplit with hA | hA | hA
        · -- still `ready` at `k`: contradicts terminality
          exfalso
          rw [hA] at hget
          have hrec : (stateAt c ce beh recs k).records[i]? = some r := by
            rw [hget]
            exact hr
          have hst := statusIn_of_get _ i r hrec
          rcases hterm with h1 | h1 <;> rw [hst, hrs] at h1 <;>
            exact Status.noConfusion h1
        · -- in `transfer` at `k`: contradicts terminality
          exfalso
          rw [hA, runState_launch_get, initState_get, hr] at hget
          have hrec : (stateAt c ce beh recs k).records[i]? =
              some { r with status := Status.transfer } := by
            rw [hget]
            rfl
          have hst := statusIn_of_get _ i _ hrec
          rcases hterm with h1 | h1 <;> rw [hst] at h1 <;>
            exact Status.noConfusion h1
        · -- settled by `k`: the unit's subtrace is already complete, so the
          -- events between `k` and `k'` never touch it
          have hdec : (processUploads c recs beh).take k' =
              (processUploads c recs beh).take k ++
                ((processUploads c recs beh).drop k).take (k' - k) := by
            have hk2 : k + (k' - k) = k' := by omega
            nth_rewrite 1 [← hk2]
            rw [List.take_add]
          have hfk' : ((processUploads c recs beh).take k').filter (touches i) =
              [Event.launch i, Event.settle i] ++
                (((processUploads c recs beh).drop k).take (k' - k)).filter
                  (touches i) := by
            rw [hdec, List.filter_append, hA]
          rw [hfk'] at hsplit'
          have hg : (((processUploads c recs beh).drop k).take (k' - k)).filter
              (touches i) = [] := by
            have h2 : [Event.launch i, Event.settle i] ++
                ((((processUploads c recs beh).drop k).take (k' - k)).filter
                    (touches i) ++
                  ((processUploads c recs beh).drop k').filter (touches i)) =
                [Event.launch i, Event.settle i] ++ ([] : List Event) := by
              rw [List.append_nil, ← List.append_assoc]
              exact hsplit'
            have h3 := List.append_cancel_left h2
            exact (List.append_eq_nil.mp h3).1
          rw [hget', hfk', hg, List.append_nil, hget, hA]
    · -- never `ready`: the unit is only ever skipped, its record never moves
      have hrf : readyAt recs i = false := by
        revert hrt
        cases readyAt recs i <;> simp
      rw [if_pos hrf] at hsplit hsplit'
      have hrec : (stateAt c ce beh recs k).records[i]? = some r := by
        rcases append_eq_singleton_left hsplit with hA | hA
        · rw [hget, hA]
          exact hr
        · rw [hget, hA, runState_skip_records]
          exact hr
      have hrec' : (stateAt c ce beh recs k').records[i]? = some r := by
        rcases append_eq_singleton_left hsplit' with hA | hA
        · rw [hget', hA]
          exact hr
        · rw [hget', hA, runState_skip_records]
          exact hr
      rw [hrec, hrec']
  · have h1 : (stateAt c ce beh recs k).records[i]? = none := by
      rw [stateAt]
      apply List.getElem?_eq_none
      rw [runState_records_length]
      exact Nat.le_of_not_lt hi
    have h2 : (stateAt c ce beh recs k').records[i]? = none := by
      rw [stateAt]
      apply List.getElem?_eq_none
      rw [runState_records_length]
      exact Nat.le_of_not_lt hi
    rw [h1, h2]

/-- C5: no round deadline ever elapses before the transfers launched in the
round settle, so no transfer is ever abandoned and no completion arrives
after its round.  `hnolate` records the code's own guarantee: `execAsync`
arms an unconditional per-item rejection timer (60 seconds per file, 300 per
folder) that fires strictly before the round deadline (180, resp. 600
seconds), so every launched transfer settles within its round, whatever the
external command does — a process-level completion arriving later is a no-op
on the already-settled promise.  Consequently the run contains no `timeout`
event, the coordinator proceeds through every round (the dequeue order is
the entire FIFO queue), and once a unit has settled into a terminal status
(`done` or `failed`) no later step of the run updates its record: its status
and error fields are never written again. -/
theorem round_timeout_never_abandons_and_late_completion_is_noop
    (c : Nat) (ce : Bool) (beh : Nat → Behaviour) (recs : List FileRecord)
    (k k' i : Nat)
    (hnolate : ∀ j, (beh j).late = false)
    (hkk : k ≤ k')
    (hterm : statusIn (stateAt c ce beh recs k) i = Status.done ∨
      statusIn (stateAt c ce beh recs k) i = Status.failed) :
    Event.timeout ∉ processUploads c recs beh ∧
      (processUploads c recs beh).filterMap dispatchIdx = List.range recs.length ∧
      (stateAt c ce beh recs k').records[i]? = (stateAt c ce beh recs k).records[i]? := by
  refine ⟨?_, processUploads_dispatch_order c recs beh,
    terminal_record_stable c ce beh recs k k' i hkk hterm⟩
  show Event.timeout ∉ runAux (concurrentUploads c) beh recs recs.length
    (List.range recs.length) []
  exact timeout_not_mem_runAux (concurrentUploads c) beh recs hnolate
    recs.length (List.range recs.length) []

/-- Witness for C5 on a concrete run: two ready units at width 1; unit 0 is
terminal (`done`) from instant 2 on, and its record at the end of the run
(instant 4) is unchanged. -/
theorem round_timeout_never_abandons_and_late_completion_is_noop_witness :
    Event.timeout ∉ processUploads 1 [sampleRecord "a" 5, sampleRecord "b" 3] behPrompt ∧
      (processUploads 1 [sampleRecord "a" 5, sampleRecord "b" 3] behPrompt).filterMap
          dispatchIdx = List.range 2 ∧
      (stateAt 1 false behPrompt [sampleRecord "a" 5, sampleRecord "b" 3] 4).records[0]? =
        (stateAt 1 false behPrompt [sampleRecord "a" 5, sampleRecord "b" 3] 2).records[0]? :=
  round_timeout_never_abandons_and_late_completion_is_noop 1 false behPrompt
    [sampleRecord "a" 5, sampleRecord "b" 3] 2 4 0 (fun _ => rfl) (by decide)
    (Or.inl (by decide))
